import Mathlib

/-!
Verification development for the B+tree mutation core: page codec (BNode),
node splitter, copy-on-write tree mutator, and the durable-write primitive.
Buffers are modelled as total byte maps `Nat → Nat` (each value kept < 256 by
construction); `uint16` arithmetic that can wrap is modelled with explicit
`% 2^16`; every `log.Fatal`/`panic` site is an `Except` error.
-/

/-- Modelled from the spec: the constants `BTREE_PAGE_SIZE`, `HEADER`,
`BTREE_MAX_KEY_SIZE`, `BTREE_MAX_VAL_SIZE` are declared in a repository file
not included in the sources; §6 of the design gives `PAGE_SIZE = 4096`,
`HEADER_SIZE = 4`, `MAX_KEY_SIZE = 1000`, `MAX_VALUE_SIZE = 3000`. -/
def BTREE_PAGE_SIZE : Nat := 4096

def HEADER : Nat := 4

def BTREE_MAX_KEY_SIZE : Nat := 1000

def BTREE_MAX_VAL_SIZE : Nat := 3000

def BNODE_NODE : Nat := 1

def BNODE_LEAF : Nat := 2

/-- A page buffer: a total map from byte positions to byte values. -/
def Buf : Type := Nat → Nat

/-- A freshly allocated buffer (`make([]byte, ...)` is zero-filled). -/
def zeroBuf : Buf := fun _ => 0

/-- Write a list of bytes at consecutive positions (truncating to byte range,
as storing into a `[]byte` does). -/
def writeBytes (b : Buf) (p : Nat) : List Nat → Buf
  | [] => b
  | v :: vs => writeBytes (fun q => if q = p then v % 256 else b q) (p + 1) vs

/-- Read `n` bytes starting at position `p`. -/
def readBytes (b : Buf) (p : Nat) : Nat → List Nat
  | 0 => []
  | n + 1 => b p :: readBytes b (p + 1) n

/-- Little-endian value of a byte list. -/
def bytesToNatLE : List Nat → Nat
  | [] => 0
  | v :: vs => v + 256 * bytesToNatLE vs

/-- Little-endian byte list of width `w` for a value. -/
def natToBytesLE : Nat → Nat → List Nat
  | 0, _ => []
  | w + 1, v => v % 256 :: natToBytesLE w (v / 256)

/-- Go `binary.LittleEndian.Uint16`. -/
def get16 (b : Buf) (p : Nat) : Nat := bytesToNatLE (readBytes b p 2)

/-- Go `binary.LittleEndian.PutUint16`. -/
def put16 (b : Buf) (p v : Nat) : Buf := writeBytes b p (natToBytesLE 2 v)

/-- Go `binary.LittleEndian.Uint64`. -/
def get64 (b : Buf) (p : Nat) : Nat := bytesToNatLE (readBytes b p 8)

/-- Go `binary.LittleEndian.PutUint64`. -/
def put64 (b : Buf) (p v : Nat) : Buf := writeBytes b p (natToBytesLE 8 v)

/-- Go `uint16` addition with wraparound. -/
def wadd (a b : Nat) : Nat := (a + b) % 65536

/-- Go `uint16` subtraction with wraparound. -/
def wsub (a b : Nat) : Nat := (a + 65536 - b % 65536) % 65536

/-- Fault outcomes of the Go code: `log.Fatal` sites, the `panic("bad node!")`
in `treeInsert`, and a fuel-exhaustion artifact of the embedding (proved
unreachable wherever a claim depends on it). -/
inductive Fault
  | fatal
  | badNode
  | fuel
deriving DecidableEq

/-- Go `func (node BNode) btype() uint16`. -/
def btype (node : Buf) : Nat := get16 node 0

/-- Go `func (node BNode) nkeys() uint16`. -/
def nkeys (node : Buf) : Nat := get16 node 2

/-- Go `func (node BNode) setHeader(btype uint16, nkeys uint16)`. -/
def setHeader (node : Buf) (t n : Nat) : Buf := put16 (put16 node 0 t) 2 n

/-- Go `func (node BNode) getPtr(idx uint16) uint64` (fatal when out of range). -/
def getPtr (node : Buf) (idx : Nat) : Except Fault Nat :=
  if idx < nkeys node then .ok (get64 node (HEADER + 8 * idx)) else .error .fatal

/-- Go `func (node BNode) setPtr(idx uint16, val uint64)`. -/
def setPtr (node : Buf) (idx val : Nat) : Except Fault Buf :=
  if idx < nkeys node then .ok (put64 node (HEADER + 8 * idx) val) else .error .fatal

/-- Go `func offsetPos(node BNode, idx uint16) uint16` (fatal unless `1 ≤ idx ≤ nkeys`). -/
def offsetPos (node : Buf) (idx : Nat) : Except Fault Nat :=
  if 1 ≤ idx ∧ idx ≤ nkeys node then .ok (HEADER + 8 * nkeys node + 2 * (idx - 1))
  else .error .fatal

/-- Go `func (node BNode) getOffset(idx uint16) uint16`. -/
def getOffset (node : Buf) (idx : Nat) : Except Fault Nat :=
  if idx = 0 then .ok 0
  else do
    let p ← offsetPos node idx
    .ok (get16 node p)

/-- Go `func (node BNode) setOffset(idx uint16, offset uint16)`. -/
def setOffset (node : Buf) (idx offset : Nat) : Except Fault Buf := do
  let p ← offsetPos node idx
  .ok (put16 node p offset)

/-- Go `func (node BNode) kvPos(idx uint16) uint16` (fatal unless `idx ≤ nkeys`). -/
def kvPos (node : Buf) (idx : Nat) : Except Fault Nat :=
  if idx ≤ nkeys node then do
    let off ← getOffset node idx
    .ok (HEADER + 8 * nkeys node + 2 * nkeys node + off)
  else .error .fatal

/-- Go `func (node BNode) getKey(idx uint16) []byte`. -/
def getKey (node : Buf) (idx : Nat) : Except Fault (List Nat) :=
  if idx < nkeys node then do
    let pos ← kvPos node idx
    let klen := get16 node pos
    .ok (readBytes node (pos + 4) klen)
  else .error .fatal

/-- Go `func (node BNode) getVal(idx uint16) []byte`. -/
def getVal (node : Buf) (idx : Nat) : Except Fault (List Nat) :=
  if idx < nkeys node then do
    let pos ← kvPos node idx
    let klen := get16 node pos
    let vlen := get16 node (pos + 2)
    .ok (readBytes node (pos + 4 + klen) vlen)
  else .error .fatal

/-- Go `func (node BNode) nbytes() uint16`. -/
def nbytes (node : Buf) : Except Fault Nat := kvPos node (nkeys node)

/-- Go `bytes.Compare` on byte slices: lexicographic, a proper prefix is smaller. -/
def compareBytes : List Nat → List Nat → Ordering
  | [], [] => .eq
  | [], _ :: _ => .lt
  | _ :: _, [] => .gt
  | a :: as, b :: bs =>
    if a < b then .lt else if b < a then .gt else compareBytes as bs

/-- The scan loop of `nodeLookupLE` (`i` ranges up; `i - 1` wraps in uint16). -/
def lookupLoop (node : Buf) (key : List Nat) : Nat → Nat → Except Fault Nat
  | 0, _ => .error .fuel
  | fuel + 1, i =>
    if i < nkeys node then do
      let k ← getKey node i
      match compareBytes k key with
      | .eq => .ok i
      | .gt => .ok (wsub i 1)
      | .lt => lookupLoop node key fuel (i + 1)
    else .ok (wsub i 1)

/-- Go `func nodeLookupLE(node BNode, key []byte) uint16`. -/
def nodeLookupLE (node : Buf) (key : List Nat) : Except Fault Nat :=
  lookupLoop node key (nkeys node + 1) 0

/-- Go `func nodeAppendKV(new BNode, idx uint16, ptr uint64, key []byte, val []byte)`. -/
def nodeAppendKV (new : Buf) (idx ptr : Nat) (key val : List Nat) :
    Except Fault Buf := do
  let n1 ← setPtr new idx ptr
  let pos ← kvPos n1 idx
  let n2 := put16 n1 pos key.length
  let n3 := put16 n2 (pos + 2) val.length
  let n4 := writeBytes n3 (pos + 4) key
  let n5 := writeBytes n4 (pos + 4 + key.length) val
  let off ← getOffset n5 idx
  setOffset n5 (idx + 1) (off + 4 + (key.length + val.length))

/-- Go `func nodeAppendRange(new BNode, old BNode, dstNew uint16, srcOld uint16, n uint16)`. -/
def nodeAppendRange (new old : Buf) : Nat → Nat → Nat → Except Fault Buf
  | _, _, 0 => .ok new
  | dstNew, srcOld, n + 1 => do
    let p ← getPtr old srcOld
    let k ← getKey old srcOld
    let v ← getVal old srcOld
    let new' ← nodeAppendKV new dstNew p k v
    nodeAppendRange new' old (dstNew + 1) (srcOld + 1) n

/-- Go `func leafInsert(new BNode, old BNode, idx uint16, key []byte, val []byte)`. -/
def leafInsert (new old : Buf) (idx : Nat) (key val : List Nat) :
    Except Fault Buf := do
  let n1 := setHeader new BNODE_LEAF (wadd (nkeys old) 1)
  let n2 ← nodeAppendRange n1 old 0 0 idx
  let n3 ← nodeAppendKV n2 idx 0 key val
  nodeAppendRange n3 old (wadd idx 1) idx (wsub (nkeys old) idx)

/-- Go `func leafUpdate(new BNode, old BNode, idx uint16, key []byte, val []byte)`. -/
def leafUpdate (new old : Buf) (idx : Nat) (key val : List Nat) :
    Except Fault Buf := do
  let n1 := setHeader new BNODE_LEAF (nkeys old)
  let n2 ← nodeAppendRange n1 old 0 0 idx
  let n3 ← nodeAppendKV n2 idx 0 key val
  nodeAppendRange n3 old (wadd idx 1) (wadd idx 1) (wsub (nkeys old) (wadd idx 1))

/-- The decrementing phase of `nodeSplit2`: `for left_bytes() > BTREE_PAGE_SIZE { nleft-- }`.
`left_bytes() = 4 + 8*nleft + 2*nleft + old.getOffset(nleft)`. -/
def split2Dec (old : Buf) : Nat → Nat → Except Fault Nat
  | 0, _ => .error .fuel
  | fuel + 1, nleft => do
    let off ← getOffset old nleft
    if 4 + 8 * nleft + 2 * nleft + off > BTREE_PAGE_SIZE then
      split2Dec old fuel (wsub nleft 1)
    else .ok nleft

/-- The incrementing phase of `nodeSplit2`:
`for right_bytes() > BTREE_PAGE_SIZE { nleft++ }` where
`right_bytes() = old.nbytes() - left_bytes() + 4` (uint16 arithmetic). -/
def split2Inc (old : Buf) : Nat → Nat → Except Fault Nat
  | 0, _ => .error .fuel
  | fuel + 1, nleft => do
    let off ← getOffset old nleft
    let lb := 4 + 8 * nleft + 2 * nleft + off
    let nb ← nbytes old
    if wadd (wsub nb lb) 4 > BTREE_PAGE_SIZE then
      split2Inc old fuel (wadd nleft 1)
    else .ok nleft

/-- Go `func nodeSplit2(left BNode, right BNode, old BNode)`. -/
def nodeSplit2 (left right old : Buf) : Except Fault (Buf × Buf) := do
  if nkeys old < 2 then .error .fatal
  else
    let nl1 ← split2Dec old (nkeys old / 2 + 2) (nkeys old / 2)
    if nl1 < 1 then .error .fatal
    else
      let nl2 ← split2Inc old (nkeys old + 2) nl1
      if nl2 > nkeys old then .error .fatal
      else
        let nright := wsub (nkeys old) nl2
        let l1 := setHeader left (btype old) nl2
        let r1 := setHeader right (btype old) nright
        let l2 ← nodeAppendRange l1 old 0 0 nl2
        let r2 ← nodeAppendRange r1 old 0 nl2 nright
        let rb ← nbytes r2
        if rb ≤ BTREE_PAGE_SIZE then .ok (l2, r2) else .error .fatal

/-- Go `func nodeSplit3(old BNode) (uint16, [3]BNode)` (the `[:BTREE_PAGE_SIZE]`
re-slicings only shorten capacity and do not change any readable byte). -/
def nodeSplit3 (old : Buf) : Except Fault (Nat × List Buf) := do
  let nb ← nbytes old
  if nb ≤ BTREE_PAGE_SIZE then .ok (1, [old])
  else
    let lr ← nodeSplit2 zeroBuf zeroBuf old
    let lb ← nbytes lr.1
    if lb ≤ BTREE_PAGE_SIZE then .ok (2, [lr.1, lr.2])
    else
      let lm ← nodeSplit2 zeroBuf zeroBuf lr.1
      let llb ← nbytes lm.1
      if llb ≤ BTREE_PAGE_SIZE then .ok (3, [lm.1, lm.2, lr.2])
      else .error .fatal

/-- Go `type BTree struct`: root pointer plus the page-store callbacks, modelled
as a page map with a fresh-id counter. -/
structure BTree where
  root : Nat
  pages : Nat → Option Buf
  nextId : Nat

/-- Callback `tree.get`: dereference a page number. -/
def treeGet (t : BTree) (id : Nat) : Buf := (t.pages id).getD zeroBuf

/-- Callback `tree.new`: allocate a new page number with data. -/
def treeNew (t : BTree) (node : Buf) : Nat × BTree :=
  (t.nextId,
   { t with
     pages := fun i => if i = t.nextId then some node else t.pages i
     nextId := t.nextId + 1 })

/-- Callback `tree.del`: deallocate a page number. -/
def treeDel (t : BTree) (id : Nat) : BTree :=
  { t with pages := fun i => if i = id then none else t.pages i }

/-- The per-kid loop of `nodeReplaceKidN`: append one entry per split node,
persisting each via `tree.new`, separator key = that node's first key, nil value. -/
def replaceKidLoop (tree : BTree) (new : Buf) (idx : Nat) :
    List Buf → Nat → Except Fault (Buf × BTree)
  | [], _ => .ok (new, tree)
  | kid :: rest, i => do
    let k ← getKey kid 0
    let alloc := treeNew tree kid
    let new' ← nodeAppendKV new (wadd idx i) alloc.1 k []
    replaceKidLoop alloc.2 new' idx rest (i + 1)

/-- Go `func nodeReplaceKidN(tree *BTree, new BNode, old BNode, idx uint16, kids ...BNode)`. -/
def nodeReplaceKidN (tree : BTree) (new old : Buf) (idx : Nat) (kids : List Buf) :
    Except Fault (Buf × BTree) := do
  let inc := kids.length
  let n1 := setHeader new BNODE_NODE (wsub (wadd (nkeys old) inc) 1)
  let n2 ← nodeAppendRange n1 old 0 0 idx
  let res ← replaceKidLoop tree n2 idx kids 0
  let n3 ← nodeAppendRange res.1 old (wadd idx inc) (wadd idx 1)
      (wsub (nkeys old) (wadd idx 1))
  .ok (n3, res.2)

/-- Go `func treeInsert(tree *BTree, node BNode, key []byte, val []byte) BNode`.
The fuel argument drives the (in the source unbounded) self-recursion of the
internal-node branch. Faithful to the source: `idx` is looked up in the fresh
buffer `new`; the leaf-insert branch passes `node` as destination and the
function returns `new`; the internal branch recurses on `node` itself. -/
def treeInsert : Nat → BTree → Buf → List Nat → List Nat →
    Except Fault (Buf × BTree)
  | 0, _, _, _, _ => .error .fuel
  | fuel + 1, tree, node, key, val => do
    let new := zeroBuf
    let idx ← nodeLookupLE new key
    if btype node = BNODE_LEAF then do
      let k ← getKey node idx
      if key = k then do
        let b ← leafUpdate new node idx key val
        .ok (b, tree)
      else do
        let _ ← leafInsert node node idx key val
        .ok (new, tree)
    else if btype node = BNODE_NODE then do
      let kptr ← getPtr node idx
      let res ← treeInsert fuel tree node key val
      let spl ← nodeSplit3 res.1
      let tree2 := treeDel res.2 kptr
      nodeReplaceKidN tree2 new node idx (spl.2.take spl.1)
    else .error .badNode

/-- Filesystem state for the durable-write primitive: path contents. -/
def FS : Type := String → Option (List Nat)

/-- Injected outcomes for the fallible filesystem steps of `SaveData2`. -/
structure FsOutcome where
  openOk : Bool
  writeOk : Bool
  syncOk : Bool
  renameOk : Bool

/-- Go `func SaveData2(path string, data []byte) error`. The temp name is
`fmt.Sprintf("%s.tmp.%d", path, rand.Int())` with `r` standing for the random
number. `O_EXCL` fails the open when the temp path exists. The deferred
cleanup removes the temp file only when the captured `err` variable is
non-nil, which is the case exactly for open/write/sync failures: the
`os.Rename` result is returned directly and never assigned to `err`. -/
def SaveData2 (fs : FS) (path : String) (data : List Nat) (r : Nat)
    (oc : FsOutcome) : Except Unit Unit × FS :=
  let tmp := path ++ ".tmp." ++ toString r
  if (fs tmp).isSome ∨ oc.openOk = false then (.error (), fs)
  else
    let fs1 : FS := fun q => if q = tmp then some [] else fs q
    if oc.writeOk = false then
      (.error (), fun q => if q = tmp then none else fs1 q)
    else
      let fs2 : FS := fun q => if q = tmp then some data else fs1 q
      if oc.syncOk = false then
        (.error (), fun q => if q = tmp then none else fs2 q)
      else if oc.renameOk = false then (.error (), fs2)
      else (.ok (), fun q => if q = path then some data
                             else if q = tmp then none else fs2 q)

/-- One logical node entry: child pointer, key bytes, value bytes. -/
structure Entry where
  ptr : Nat
  key : List Nat
  val : List Nat

instance : Inhabited Entry := ⟨⟨0, [], []⟩⟩

/-- Encoded size of one KV pair: `klen(2) + vlen(2) + key + val`. -/
def entrySize (e : Entry) : Nat := 4 + e.key.length + e.val.length

/-- Cumulative KV-region offset of entry `i` (the offset-array contents). -/
def offAt (es : List Entry) (i : Nat) : Nat := ((es.take i).map entrySize).sum

/-- The encoded byte size of a node holding `es`:
header + pointer array + offset array + KV region. -/
def nbytesSpec (es : List Entry) : Nat := 4 + 10 * es.length + offAt es es.length

/-- Entry `i` of a list (default entry when out of range). -/
def entAt (es : List Entry) (i : Nat) : Entry := es.getD i default

/-- Build a node buffer the way the source does: `setHeader` followed by one
`nodeAppendKV` per entry in order. -/
def buildAux (j : Nat) (b : Buf) : List Entry → Except Fault Buf
  | [] => .ok b
  | e :: rest => do
    let b' ← nodeAppendKV b j e.ptr e.key e.val
    buildAux (j + 1) b' rest

/-- Build a node from a type tag and an entry list. -/
def buildNode (t : Nat) (es : List Entry) : Except Fault Buf :=
  buildAux 0 (setHeader zeroBuf t es.length) es

/-- Size/byte-range validity of one entry (the spec's `MAX_KEY_SIZE` /
`MAX_VALUE_SIZE` bounds, byte-valued contents, pointer fits in 8 bytes). -/
def ValidEntry (e : Entry) : Prop :=
  e.key.length ≤ BTREE_MAX_KEY_SIZE ∧ e.val.length ≤ BTREE_MAX_VAL_SIZE ∧
  (∀ x ∈ e.key, x < 256) ∧ (∀ x ∈ e.val, x < 256) ∧ e.ptr < 2 ^ 64

def ValidEntries (es : List Entry) : Prop := ∀ e ∈ es, ValidEntry e

instance (e : Entry) : Decidable (ValidEntry e) := by unfold ValidEntry; infer_instance

instance (es : List Entry) : Decidable (ValidEntries es) := by
  unfold ValidEntries; infer_instance

/-- Entry-level mirror of `split2Dec` on a node holding `es`. -/
def decN (es : List Entry) : Nat → Nat
  | 0 => 0
  | k + 1 =>
    if 4 + 10 * (k + 1) + offAt es (k + 1) > BTREE_PAGE_SIZE then decN es k
    else k + 1

/-- Entry-level mirror of `split2Inc` on a node holding `es` with `m` keys. -/
def incN (es : List Entry) (m : Nat) : Nat → Nat → Nat
  | 0, k => k
  | fuel + 1, k =>
    if 4 + 10 * (m - k) + (offAt es m - offAt es k) > BTREE_PAGE_SIZE then
      incN es m fuel (k + 1)
    else k

/-- The `nleft` entry count chosen by `nodeSplit2` for a node holding `es`. -/
def splitPoint (es : List Entry) : Nat :=
  incN es es.length (es.length + 1) (decN es (es.length / 2))

/-- All positions of the buffer hold byte values. -/
def ByteVals (b : Buf) : Prop := ∀ p, b p < 256

/-! The decoding relation between a buffer and an entry list -/

/-- The relation `Decodes b t m es`: the buffer `b` carries a node header with type `t` and
key count `m`, and its first `es.length` slots (pointer array, offset array and
KV region laid out for `m` keys) decode to the entries `es`. -/
def Decodes (b : Buf) (t m : Nat) (es : List Entry) : Prop :=
  ByteVals b ∧
  get16 b 0 = t ∧
  get16 b 2 = m ∧
  es.length ≤ m ∧
  (∀ i, i < es.length → get64 b (4 + 8 * i) = (entAt es i).ptr) ∧
  (∀ i, 1 ≤ i → i ≤ es.length → get16 b (4 + 8 * m + 2 * (i - 1)) = offAt es i) ∧
  (∀ i, i < es.length →
    get16 b (4 + 10 * m + offAt es i) = (entAt es i).key.length ∧
    get16 b (4 + 10 * m + offAt es i + 2) = (entAt es i).val.length ∧
    readBytes b (4 + 10 * m + offAt es i + 4) (entAt es i).key.length =
      (entAt es i).key ∧
    readBytes b (4 + 10 * m + offAt es i + 4 + (entAt es i).key.length)
      (entAt es i).val.length = (entAt es i).val)

/-- Read the ordered key list of a node (the decoded key sequence). -/
def keysFrom (b : Buf) : Nat → Nat → Except Fault (List (List Nat))
  | 0, _ => .ok []
  | cnt + 1, i => do
    let k ← getKey b i
    let rest ← keysFrom b cnt (i + 1)
    .ok (k :: rest)

def nodeKeys (b : Buf) : Except Fault (List (List Nat)) :=
  keysFrom b (nkeys b) 0

/-- Strictly ascending keys, stated positionally. -/
def SortedKeys (es : List Entry) : Prop :=
  ∀ j1 j2, j1 < j2 → j2 < es.length →
    compareBytes (entAt es j1).key (entAt es j2).key = .lt

/-- A concrete page store handle for evaluating the failing inputs. -/
def tree0 : BTree := ⟨1, fun _ => none, 2⟩

/-- One-entry leaf: key `"a"`, value `"1"`. -/
def leafOne : List Entry := [⟨0, [97], [49]⟩]

/-- One-entry internal node: child pointer 7, separator key `"a"`. -/
def nodeOne : List Entry := [⟨7, [97], []⟩]

/-- Two-entry leaf: `"a" → "1"`, `"c" → "3"`. -/
def leafTwo : List Entry := [⟨0, [97], [49]⟩, ⟨0, [99], [51]⟩]

/-- One-entry leaf with key `"b"`, used against the floor lookup. -/
def lookupCex : List Entry := [⟨0, [98], [50]⟩]

/-- A small two-entry node for witnesses. -/
def exPair : List Entry := [⟨7, [97], [49]⟩, ⟨8, [99], [51]⟩]

/-- Four bounded, strictly ascending entries whose encoded size is exactly
`2 * BTREE_PAGE_SIZE`; splitting drives `nodeSplit3` into its fatal branch. -/
def splitCex : List Entry :=
  [⟨0, [97], List.replicate 66 120⟩,
   ⟨0, 98 :: List.replicate 999 0, List.replicate 3000 120⟩,
   ⟨0, 99 :: List.replicate 999 0, List.replicate 3000 120⟩,
   ⟨0, [100], List.replicate 64 120⟩]

/-- An empty filesystem for the durable-writer witnesses. -/
def fs0 : FS := fun _ => none

/-! Byte-level primitive lemmas -/

theorem writeBytes_apply (l : List Nat) (b : Buf) (p q : Nat) :
    writeBytes b p l q =
      if p ≤ q ∧ q < p + l.length then l.getD (q - p) 0 % 256 else b q := by
  induction l generalizing b p with
  | nil =>
    simp only [writeBytes, List.length_nil, Nat.add_zero]
    rw [if_neg (by omega)]
  | cons x xs ih =>
    show writeBytes _ (p + 1) xs q = _
    rw [ih]
    simp only [List.length_cons]
    by_cases hq : q = p
    · rw [if_neg (by omega), if_pos (by omega), if_pos (by omega), hq,
        Nat.sub_self, List.getD_cons_zero]
    · by_cases hin : p + 1 ≤ q ∧ q < p + 1 + xs.length
      · rw [if_pos hin, if_pos (by omega)]
        have h1 : q - p = (q - (p + 1)) + 1 := by omega
        rw [h1, List.getD_cons_succ]
      · rw [if_neg hin, if_neg (by omega), if_neg (by omega)]

theorem readBytes_congr {b1 b2 : Buf} {n : Nat} (p : Nat)
    (h : ∀ i, i < n → b1 (p + i) = b2 (p + i)) :
    readBytes b1 p n = readBytes b2 p n := by
  induction n generalizing p with
  | zero => rfl
  | succ n ih =>
    simp only [readBytes]
    congr 1
    · simpa using h 0 (by omega)
    · exact ih (p + 1) fun i hi => by
        have := h (1 + i) (by omega)
        simpa [Nat.add_assoc] using this

theorem readBytes_writeBytes_out {b : Buf} {l : List Nat} {p q n : Nat}
    (h : q + n ≤ p ∨ p + l.length ≤ q) :
    readBytes (writeBytes b p l) q n = readBytes b q n := by
  refine readBytes_congr q fun i hi => ?_
  rw [writeBytes_apply, if_neg (by omega)]

theorem readBytes_writeBytes_self (l : List Nat) (b : Buf) (p : Nat) :
    readBytes (writeBytes b p l) p l.length = l.map (· % 256) := by
  induction l generalizing b p with
  | nil => rfl
  | cons x xs ih =>
    simp only [writeBytes, List.length_cons, readBytes, List.map_cons]
    congr 1
    · rw [writeBytes_apply, if_neg (by omega)]
      simp
    · exact ih _ (p + 1)

theorem natToBytesLE_length (w v : Nat) : (natToBytesLE w v).length = w := by
  induction w generalizing v with
  | zero => rfl
  | succ w ih => simp [natToBytesLE, ih]

theorem natToBytesLE_lt (w v : Nat) : ∀ x ∈ natToBytesLE w v, x < 256 := by
  induction w generalizing v with
  | zero => simp [natToBytesLE]
  | succ w ih =>
    simp only [natToBytesLE, List.mem_cons]
    rintro x (rfl | hx)
    · exact Nat.mod_lt _ (by omega)
    · exact ih _ x hx

theorem map_mod_self {l : List Nat} (h : ∀ x ∈ l, x < 256) :
    l.map (· % 256) = l := by
  induction l with
  | nil => rfl
  | cons x xs ih =>
    simp only [List.map_cons]
    rw [Nat.mod_eq_of_lt (h x (by simp)), ih fun y hy => h y (by simp [hy])]

theorem bytesToNatLE_natToBytesLE (w v : Nat) :
    bytesToNatLE (natToBytesLE w v) = v % 256 ^ w := by
  induction w generalizing v with
  | zero => simp [natToBytesLE, bytesToNatLE, Nat.mod_one]
  | succ w ih =>
    simp only [natToBytesLE, bytesToNatLE, ih]
    have hK : 0 < 256 ^ w := Nat.pos_pow_of_pos w (by omega)
    have hlt : 256 * (v / 256 % 256 ^ w) + v % 256 < 256 ^ (w + 1) := by
      have h1 : v / 256 % 256 ^ w < 256 ^ w := Nat.mod_lt _ hK
      have h2 : v % 256 < 256 := Nat.mod_lt _ (by omega)
      calc 256 * (v / 256 % 256 ^ w) + v % 256
          < 256 * (v / 256 % 256 ^ w) + 256 := by omega
        _ = 256 * (v / 256 % 256 ^ w + 1) := by ring
        _ ≤ 256 * 256 ^ w := Nat.mul_le_mul_left _ (by omega)
        _ = 256 ^ (w + 1) := by rw [Nat.pow_succ]; ring
    have hv : v = 256 ^ (w + 1) * (v / 256 / 256 ^ w) +
        (256 * (v / 256 % 256 ^ w) + v % 256) := by
      have hsplit : 256 ^ w * (v / 256 / 256 ^ w) + v / 256 % 256 ^ w = v / 256 :=
        Nat.div_add_mod _ _
      calc v = 256 * (v / 256) + v % 256 := (Nat.div_add_mod v 256).symm
        _ = 256 * (256 ^ w * (v / 256 / 256 ^ w) + v / 256 % 256 ^ w) + v % 256 := by
            rw [hsplit]
        _ = 256 ^ (w + 1) * (v / 256 / 256 ^ w) +
            (256 * (v / 256 % 256 ^ w) + v % 256) := by rw [Nat.pow_succ]; ring
    conv_rhs => rw [hv]
    rw [Nat.mul_add_mod, Nat.mod_eq_of_lt hlt]
    ring

theorem get16_eq (b : Buf) (p : Nat) : get16 b p = b p + 256 * b (p + 1) := by
  simp [get16, readBytes, bytesToNatLE]

theorem get16_writeBytes_out {b : Buf} {l : List Nat} {p q : Nat}
    (h : q + 2 ≤ p ∨ p + l.length ≤ q) :
    get16 (writeBytes b p l) q = get16 b q := by
  unfold get16
  rw [readBytes_writeBytes_out h]

theorem get64_writeBytes_out {b : Buf} {l : List Nat} {p q : Nat}
    (h : q + 8 ≤ p ∨ p + l.length ≤ q) :
    get64 (writeBytes b p l) q = get64 b q := by
  unfold get64
  rw [readBytes_writeBytes_out h]

theorem get16_put16_out {b : Buf} {p q v : Nat} (h : q + 2 ≤ p ∨ p + 2 ≤ q) :
    get16 (put16 b p v) q = get16 b q := by
  unfold put16
  exact get16_writeBytes_out (by rw [natToBytesLE_length]; omega)

theorem get16_put64_out {b : Buf} {p q v : Nat} (h : q + 2 ≤ p ∨ p + 8 ≤ q) :
    get16 (put64 b p v) q = get16 b q := by
  unfold put64
  exact get16_writeBytes_out (by rw [natToBytesLE_length]; omega)

theorem get64_put16_out {b : Buf} {p q v : Nat} (h : q + 8 ≤ p ∨ p + 2 ≤ q) :
    get64 (put16 b p v) q = get64 b q := by
  unfold put16
  exact get64_writeBytes_out (by rw [natToBytesLE_length]; omega)

theorem get64_put64_out {b : Buf} {p q v : Nat} (h : q + 8 ≤ p ∨ p + 8 ≤ q) :
    get64 (put64 b p v) q = get64 b q := by
  unfold put64
  exact get64_writeBytes_out (by rw [natToBytesLE_length]; omega)

theorem readBytes_put16_out {b : Buf} {p q v n : Nat}
    (h : q + n ≤ p ∨ p + 2 ≤ q) :
    readBytes (put16 b p v) q n = readBytes b q n := by
  unfold put16
  exact readBytes_writeBytes_out (by rw [natToBytesLE_length]; omega)

theorem readBytes_put64_out {b : Buf} {p q v n : Nat}
    (h : q + n ≤ p ∨ p + 8 ≤ q) :
    readBytes (put64 b p v) q n = readBytes b q n := by
  unfold put64
  exact readBytes_writeBytes_out (by rw [natToBytesLE_length]; omega)

theorem get16_put16_self (b : Buf) (p v : Nat) :
    get16 (put16 b p v) p = v % 65536 := by
  have h := readBytes_writeBytes_self (natToBytesLE 2 v) b p
  rw [natToBytesLE_length] at h
  unfold get16 put16
  rw [h, map_mod_self (natToBytesLE_lt 2 v), bytesToNatLE_natToBytesLE]
  norm_num

theorem get64_put64_self (b : Buf) (p v : Nat) :
    get64 (put64 b p v) p = v % 2 ^ 64 := by
  have h := readBytes_writeBytes_self (natToBytesLE 8 v) b p
  rw [natToBytesLE_length] at h
  unfold get64 put64
  rw [h, map_mod_self (natToBytesLE_lt 8 v), bytesToNatLE_natToBytesLE]
  norm_num

theorem readBytes_writeBytes_self_lt {l : List Nat} (h : ∀ x ∈ l, x < 256)
    (b : Buf) (p : Nat) :
    readBytes (writeBytes b p l) p l.length = l := by
  rw [readBytes_writeBytes_self, map_mod_self h]


theorem byteVals_zeroBuf : ByteVals zeroBuf := fun _ => by
  show (0 : Nat) < 256
  omega

theorem byteVals_writeBytes {b : Buf} (h : ByteVals b) (p : Nat) (l : List Nat) :
    ByteVals (writeBytes b p l) := by
  intro q
  rw [writeBytes_apply]
  by_cases hc : p ≤ q ∧ q < p + l.length
  · rw [if_pos hc]; exact Nat.mod_lt _ (by omega)
  · rw [if_neg hc]; exact h q

theorem byteVals_put16 {b : Buf} (h : ByteVals b) (p v : Nat) :
    ByteVals (put16 b p v) := byteVals_writeBytes h _ _

theorem byteVals_put64 {b : Buf} (h : ByteVals b) (p v : Nat) :
    ByteVals (put64 b p v) := byteVals_writeBytes h _ _

theorem get16_lt {b : Buf} (h : ByteVals b) (p : Nat) : get16 b p < 65536 := by
  rw [get16_eq]
  have h1 := h p
  have h2 := h (p + 1)
  omega

theorem mem_readBytes_lt {b : Buf} (h : ByteVals b) (p n : Nat) :
    ∀ x ∈ readBytes b p n, x < 256 := by
  induction n generalizing p with
  | zero => simp [readBytes]
  | succ n ih =>
    simp only [readBytes, List.mem_cons]
    rintro x (rfl | hx)
    · exact h p
    · exact ih (p + 1) x hx

/-! Entry-level offset arithmetic -/

theorem offAt_zero (es : List Entry) : offAt es 0 = 0 := rfl

theorem offAt_succ_of_lt {es : List Entry} {i : Nat} (h : i < es.length) :
    offAt es (i + 1) = offAt es i + entrySize (entAt es i) := by
  unfold offAt entAt
  rw [List.take_succ]
  have hg : es[i]? = some (es.getD i default) := by
    rw [List.getD_eq_getD_get?]
    simp [List.get?_eq_getElem?, List.getElem?_eq_getElem h]
  rw [hg]
  simp

theorem offAt_of_length_le {es : List Entry} {i : Nat} (h : es.length ≤ i) :
    offAt es i = offAt es es.length := by
  unfold offAt
  rw [List.take_of_length_le h, List.take_length]

theorem offAt_mono {es : List Entry} {i j : Nat} (h : i ≤ j) :
    offAt es i ≤ offAt es j := by
  induction j with
  | zero => exact Nat.le_of_eq (by rw [Nat.le_zero.mp h])
  | succ j ih =>
    rcases Nat.lt_or_ge i (j + 1) with hij | hij
    · have h1 : offAt es i ≤ offAt es j := ih (by omega)
      by_cases hj : j < es.length
      · rw [offAt_succ_of_lt hj]; omega
      · rw [offAt_of_length_le (show es.length ≤ j + 1 by omega),
          ← offAt_of_length_le (show es.length ≤ j by omega)]
        exact h1
    · have : i = j + 1 := by omega
      subst this
      exact Nat.le_refl _

theorem offAt_append_of_le {es : List Entry} {e : Entry} {i : Nat}
    (h : i ≤ es.length) :
    offAt (es ++ [e]) i = offAt es i := by
  unfold offAt
  rw [List.take_append_of_le_length h]

theorem offAt_append_succ (es : List Entry) (e : Entry) :
    offAt (es ++ [e]) (es.length + 1) = offAt es es.length + entrySize e := by
  unfold offAt
  rw [List.take_of_length_le (by simp), List.take_length]
  simp

theorem entAt_append_of_lt {es : List Entry} {e : Entry} {i : Nat}
    (h : i < es.length) :
    entAt (es ++ [e]) i = entAt es i := by
  unfold entAt
  exact List.getD_append _ _ _ _ h

theorem entAt_append_self (es : List Entry) (e : Entry) :
    entAt (es ++ [e]) es.length = e := by
  unfold entAt
  rw [List.getD_append_right _ _ _ _ (Nat.le_refl _), Nat.sub_self]
  rfl


theorem Decodes.nkeys_eq {b : Buf} {t m : Nat} {es : List Entry}
    (h : Decodes b t m es) : nkeys b = m := h.2.2.1

theorem Decodes.btype_eq {b : Buf} {t m : Nat} {es : List Entry}
    (h : Decodes b t m es) : btype b = t := h.2.1

theorem Decodes.getOffset_eq {b : Buf} {t m : Nat} {es : List Entry}
    (h : Decodes b t m es) {i : Nat} (hi : i ≤ es.length) :
    getOffset b i = .ok (offAt es i) := by
  have hlm := h.2.2.2.1
  unfold getOffset
  rcases Nat.eq_zero_or_pos i with rfl | hpos
  · rw [if_pos rfl, offAt_zero]
  · rw [if_neg (by omega)]
    unfold offsetPos
    rw [h.nkeys_eq, if_pos ⟨hpos, by omega⟩]
    show Except.ok (get16 b (HEADER + 8 * m + 2 * (i - 1))) = _
    have h4 : HEADER + 8 * m + 2 * (i - 1) = 4 + 8 * m + 2 * (i - 1) := rfl
    rw [h4, h.2.2.2.2.2.1 i hpos hi]

theorem Decodes.kvPos_eq {b : Buf} {t m : Nat} {es : List Entry}
    (h : Decodes b t m es) {i : Nat} (hi : i ≤ es.length) :
    kvPos b i = .ok (4 + 10 * m + offAt es i) := by
  have hlm := h.2.2.2.1
  unfold kvPos
  rw [h.nkeys_eq, if_pos (by omega), h.getOffset_eq hi]
  show Except.ok (HEADER + 8 * m + 2 * m + offAt es i) = _
  have h4 : HEADER + 8 * m + 2 * m + offAt es i = 4 + 10 * m + offAt es i := by
    show 4 + 8 * m + 2 * m + offAt es i = _
    ring
  rw [h4]

theorem Decodes.getPtr_eq {b : Buf} {t m : Nat} {es : List Entry}
    (h : Decodes b t m es) {i : Nat} (hi : i < es.length) :
    getPtr b i = .ok (entAt es i).ptr := by
  have hlm := h.2.2.2.1
  unfold getPtr
  rw [h.nkeys_eq, if_pos (by omega)]
  show Except.ok (get64 b (4 + 8 * i)) = _
  rw [h.2.2.2.2.1 i hi]

theorem Decodes.getKey_eq {b : Buf} {t m : Nat} {es : List Entry}
    (h : Decodes b t m es) {i : Nat} (hi : i < es.length) :
    getKey b i = .ok (entAt es i).key := by
  have hlm := h.2.2.2.1
  unfold getKey
  rw [h.nkeys_eq, if_pos (by omega), h.kvPos_eq (by omega)]
  show Except.ok (readBytes b (4 + 10 * m + offAt es i + 4)
    (get16 b (4 + 10 * m + offAt es i))) = _
  rw [(h.2.2.2.2.2.2 i hi).1, (h.2.2.2.2.2.2 i hi).2.2.1]

theorem Decodes.getVal_eq {b : Buf} {t m : Nat} {es : List Entry}
    (h : Decodes b t m es) {i : Nat} (hi : i < es.length) :
    getVal b i = .ok (entAt es i).val := by
  have hlm := h.2.2.2.1
  unfold getVal
  rw [h.nkeys_eq, if_pos (by omega), h.kvPos_eq (by omega)]
  show Except.ok (readBytes b (4 + 10 * m + offAt es i + 4 +
    get16 b (4 + 10 * m + offAt es i))
    (get16 b (4 + 10 * m + offAt es i + 2))) = _
  rw [(h.2.2.2.2.2.2 i hi).1, (h.2.2.2.2.2.2 i hi).2.1,
    (h.2.2.2.2.2.2 i hi).2.2.2]

theorem Decodes.nbytes_eq {b : Buf} {t m : Nat} {es : List Entry}
    (h : Decodes b t m es) (hfull : es.length = m) :
    nbytes b = .ok (nbytesSpec es) := by
  unfold nbytes nbytesSpec
  rw [h.nkeys_eq, h.kvPos_eq (by omega), hfull]

theorem ok_bind {α β : Type} (a : α) (f : α → Except Fault β) :
    (Except.ok a >>= f) = f a := rfl

theorem error_bind {α β : Type} (e : Fault) (f : α → Except Fault β) :
    ((Except.error e : Except Fault α) >>= f) = Except.error e := rfl

theorem entrySize_ge (e : Entry) : 4 ≤ entrySize e := by
  unfold entrySize
  omega

theorem entrySize_eq (e : Entry) :
    entrySize e = 4 + e.key.length + e.val.length := rfl

/-- Writes that land in entry slot `es.length` of the pointer array, in offset
slots past `es.length`, or at/after the end of the used KV region leave the
decoding of the first `es.length` entries intact. -/
theorem Decodes.preserve_write {b : Buf} {t m : Nat} {es : List Entry}
    (hd : Decodes b t m es) {p : Nat} (l : List Nat)
    (hp : (4 + 8 * es.length ≤ p ∧ p + l.length ≤ 4 + 8 * m) ∨
          (4 + 8 * m + 2 * es.length ≤ p ∧ p + l.length ≤ 4 + 10 * m) ∨
          4 + 10 * m + offAt es es.length ≤ p) :
    Decodes (writeBytes b p l) t m es := by
  obtain ⟨hbv, hbt, hnk, hlen, hptr, hoff, hkv⟩ := hd
  refine ⟨byteVals_writeBytes hbv _ _, ?_, ?_, hlen, ?_, ?_, ?_⟩
  · rw [get16_writeBytes_out (by rcases hp with ⟨h1, h2⟩ | ⟨h1, h2⟩ | h1 <;> omega)]
    exact hbt
  · rw [get16_writeBytes_out (by rcases hp with ⟨h1, h2⟩ | ⟨h1, h2⟩ | h1 <;> omega)]
    exact hnk
  · intro i hi
    rw [get64_writeBytes_out
      (by rcases hp with ⟨h1, h2⟩ | ⟨h1, h2⟩ | h1 <;> omega)]
    exact hptr i hi
  · intro i h1i hile
    rw [get16_writeBytes_out
      (by rcases hp with ⟨h1, h2⟩ | ⟨h1, h2⟩ | h1 <;> omega)]
    exact hoff i h1i hile
  · intro i hi
    have hsucc := offAt_succ_of_lt hi
    have hmono : offAt es (i + 1) ≤ offAt es es.length :=
      offAt_mono (by omega)
    have hes := entrySize_eq (entAt es i)
    refine ⟨?_, ?_, ?_, ?_⟩
    · rw [get16_writeBytes_out
        (by rcases hp with ⟨h1, h2⟩ | ⟨h1, h2⟩ | h1 <;> omega)]
      exact (hkv i hi).1
    · rw [get16_writeBytes_out
        (by rcases hp with ⟨h1, h2⟩ | ⟨h1, h2⟩ | h1 <;> omega)]
      exact (hkv i hi).2.1
    · rw [readBytes_writeBytes_out
        (by rcases hp with ⟨h1, h2⟩ | ⟨h1, h2⟩ | h1 <;> omega)]
      exact (hkv i hi).2.2.1
    · rw [readBytes_writeBytes_out
        (by rcases hp with ⟨h1, h2⟩ | ⟨h1, h2⟩ | h1 <;> omega)]
      exact (hkv i hi).2.2.2

/-- Appending one entry at slot `es.length` of a partially built node succeeds
and extends its decoding by that entry. -/
theorem appendKV_step {b : Buf} {t m : Nat} {es : List Entry} {e : Entry}
    (hd : Decodes b t m es) (hlt : es.length < m) (he : ValidEntry e)
    (hoffb : offAt es es.length + entrySize e < 65536) :
    ∃ b', nodeAppendKV b es.length e.ptr e.key e.val = .ok b' ∧
      Decodes b' t m (es ++ [e]) := by
  obtain ⟨hk, hv, hkb, hvb, hp64⟩ := he
  have hlen := hd.2.2.2.1
  have hesz := entrySize_eq e
  -- step 1: the pointer write
  have hsp : setPtr b es.length e.ptr =
      .ok (put64 b (4 + 8 * es.length) e.ptr) := by
    unfold setPtr
    rw [hd.nkeys_eq, if_pos hlt]
    rfl
  have hd1 : Decodes (put64 b (4 + 8 * es.length) e.ptr) t m es :=
    hd.preserve_write _ (by rw [natToBytesLE_length]; left; omega)
  -- step 2: the KV position
  have hkv : kvPos (put64 b (4 + 8 * es.length) e.ptr) es.length =
      .ok (4 + 10 * m + offAt es es.length) := hd1.kvPos_eq (Nat.le_refl _)
  -- steps 3-6: the KV writes
  have hd2 : Decodes (put16 (put64 b (4 + 8 * es.length) e.ptr)
      (4 + 10 * m + offAt es es.length) e.key.length) t m es :=
    hd1.preserve_write _ (by rw [natToBytesLE_length]; right; right; omega)
  have hd3 : Decodes (put16 (put16 (put64 b (4 + 8 * es.length) e.ptr)
      (4 + 10 * m + offAt es es.length) e.key.length)
      (4 + 10 * m + offAt es es.length + 2) e.val.length) t m es :=
    hd2.preserve_write _ (by rw [natToBytesLE_length]; right; right; omega)
  have hd4 : Decodes (writeBytes (put16 (put16 (put64 b (4 + 8 * es.length) e.ptr)
      (4 + 10 * m + offAt es es.length) e.key.length)
      (4 + 10 * m + offAt es es.length + 2) e.val.length)
      (4 + 10 * m + offAt es es.length + 4) e.key) t m es :=
    hd3.preserve_write _ (by right; right; omega)
  have hd5 : Decodes (writeBytes
      (writeBytes (put16 (put16 (put64 b (4 + 8 * es.length) e.ptr)
        (4 + 10 * m + offAt es es.length) e.key.length)
        (4 + 10 * m + offAt es es.length + 2) e.val.length)
        (4 + 10 * m + offAt es es.length + 4) e.key)
      (4 + 10 * m + offAt es es.length + 4 + e.key.length) e.val) t m es :=
    hd4.preserve_write _ (by right; right; omega)
  -- step 7: reading the offset back
  have hgo : getOffset (writeBytes
      (writeBytes (put16 (put16 (put64 b (4 + 8 * es.length) e.ptr)
        (4 + 10 * m + offAt es es.length) e.key.length)
        (4 + 10 * m + offAt es es.length + 2) e.val.length)
        (4 + 10 * m + offAt es es.length + 4) e.key)
      (4 + 10 * m + offAt es es.length + 4 + e.key.length) e.val) es.length =
      .ok (offAt es es.length) := hd5.getOffset_eq (Nat.le_refl _)
  -- step 8: the offset write
  have hso : setOffset (writeBytes
      (writeBytes (put16 (put16 (put64 b (4 + 8 * es.length) e.ptr)
        (4 + 10 * m + offAt es es.length) e.key.length)
        (4 + 10 * m + offAt es es.length + 2) e.val.length)
        (4 + 10 * m + offAt es es.length + 4) e.key)
      (4 + 10 * m + offAt es es.length + 4 + e.key.length) e.val)
      (es.length + 1)
      (offAt es es.length + 4 + (e.key.length + e.val.length)) =
      .ok (put16 (writeBytes
        (writeBytes (put16 (put16 (put64 b (4 + 8 * es.length) e.ptr)
          (4 + 10 * m + offAt es es.length) e.key.length)
          (4 + 10 * m + offAt es es.length + 2) e.val.length)
          (4 + 10 * m + offAt es es.length + 4) e.key)
        (4 + 10 * m + offAt es es.length + 4 + e.key.length) e.val)
        (4 + 8 * m + 2 * es.length)
        (offAt es es.length + 4 + (e.key.length + e.val.length))) := by
    unfold setOffset offsetPos
    rw [hd5.nkeys_eq, if_pos (by omega), ok_bind]
    have harith : HEADER + 8 * m + 2 * (es.length + 1 - 1) =
        4 + 8 * m + 2 * es.length := by
      show 4 + 8 * m + 2 * (es.length + 1 - 1) = _
      omega
    rw [harith]
  -- the computed result
  refine ⟨put16 (writeBytes
      (writeBytes (put16 (put16 (put64 b (4 + 8 * es.length) e.ptr)
        (4 + 10 * m + offAt es es.length) e.key.length)
        (4 + 10 * m + offAt es es.length + 2) e.val.length)
        (4 + 10 * m + offAt es es.length + 4) e.key)
      (4 + 10 * m + offAt es es.length + 4 + e.key.length) e.val)
      (4 + 8 * m + 2 * es.length)
      (offAt es es.length + 4 + (e.key.length + e.val.length)), ?_, ?_⟩
  · unfold nodeAppendKV
    rw [hsp, ok_bind, hkv, ok_bind]
    dsimp only
    rw [hgo, ok_bind, hso]
  · -- the new buffer still decodes the old entries
    have hd6 : Decodes (put16 (writeBytes
        (writeBytes (put16 (put16 (put64 b (4 + 8 * es.length) e.ptr)
          (4 + 10 * m + offAt es es.length) e.key.length)
          (4 + 10 * m + offAt es es.length + 2) e.val.length)
          (4 + 10 * m + offAt es es.length + 4) e.key)
        (4 + 10 * m + offAt es es.length + 4 + e.key.length) e.val)
        (4 + 8 * m + 2 * es.length)
        (offAt es es.length + 4 + (e.key.length + e.val.length))) t m es :=
      hd5.preserve_write _ (by rw [natToBytesLE_length]; right; left; omega)
    obtain ⟨h6bv, h6t, h6n, h6len, h6ptr, h6off, h6kv⟩ := hd6
    refine ⟨h6bv, h6t, h6n, by simp; omega, ?_, ?_, ?_⟩
    · -- pointers
      intro i hi
      have hi' : i < es.length + 1 := by simpa using hi
      by_cases hij : i < es.length
      · rw [entAt_append_of_lt hij]
        exact h6ptr i hij
      · have hij' : i = es.length := by omega
        subst hij'
        rw [entAt_append_self]
        rw [get64_put16_out (by omega),
          get64_writeBytes_out (by left; omega),
          get64_writeBytes_out (by left; omega),
          get64_put16_out (by omega), get64_put16_out (by omega),
          get64_put64_self]
        exact Nat.mod_eq_of_lt hp64
    · -- offsets
      intro i h1i hile
      have hile' : i ≤ es.length + 1 := by simpa using hile
      by_cases hij : i ≤ es.length
      · rw [offAt_append_of_le hij]
        exact h6off i h1i hij
      · have hij' : i = es.length + 1 := by omega
        subst hij'
        have hidx : es.length + 1 - 1 = es.length := by omega
        rw [hidx, offAt_append_succ, get16_put16_self]
        rw [hesz]
        rw [Nat.mod_eq_of_lt (by omega)]
        omega
    · -- KV entries
      intro i hi
      have hi' : i < es.length + 1 := by simpa using hi
      by_cases hij : i < es.length
      · rw [offAt_append_of_le (by omega), entAt_append_of_lt hij]
        exact h6kv i hij
      · have hij' : i = es.length := by omega
        subst hij'
        rw [offAt_append_of_le (Nat.le_refl _), entAt_append_self]
        refine ⟨?_, ?_, ?_, ?_⟩
        · rw [get16_put16_out (by omega),
            get16_writeBytes_out (by left; omega),
            get16_writeBytes_out (by left; omega),
            get16_put16_out (by omega), get16_put16_self]
          exact Nat.mod_eq_of_lt (by omega)
        · rw [get16_put16_out (by omega),
            get16_writeBytes_out (by left; omega),
            get16_writeBytes_out (by left; omega),
            get16_put16_self]
          exact Nat.mod_eq_of_lt (by omega)
        · rw [readBytes_put16_out (by omega),
            readBytes_writeBytes_out (by left; omega),
            readBytes_writeBytes_self_lt hkb]
        · rw [readBytes_put16_out (by omega),
            readBytes_writeBytes_self_lt hvb]

theorem offAt_take {es : List Entry} {j i : Nat} (h : i ≤ j) :
    offAt (es.take j) i = offAt es i := by
  unfold offAt
  rw [List.take_take, min_eq_left h]

theorem offAt_append_left {es : List Entry} (M : List Entry) {i : Nat}
    (h : i ≤ es.length) :
    offAt (es ++ M) i = offAt es i := by
  unfold offAt
  rw [List.take_append_of_le_length h]

theorem entAt_append_left {es : List Entry} (M : List Entry) {i : Nat}
    (h : i < es.length) :
    entAt (es ++ M) i = entAt es i := by
  unfold entAt
  exact List.getD_append _ _ _ _ h

theorem take_succ_entAt {es : List Entry} {j : Nat} (h : j < es.length) :
    es.take (j + 1) = es.take j ++ [entAt es j] := by
  rw [List.take_succ]
  have hg : es[j]? = some (entAt es j) := by
    unfold entAt
    rw [List.getD_eq_getElem es default h]
    exact List.getElem?_eq_getElem h
  rw [hg]
  rfl

theorem drop_cons_entAt {es : List Entry} {j : Nat} (h : j < es.length) :
    es.drop j = entAt es j :: es.drop (j + 1) := by
  rw [List.drop_eq_getElem_cons h]
  unfold entAt
  rw [List.getD_eq_getElem es default h]

theorem entAt_valid {es : List Entry} (hv : ValidEntries es) {j : Nat}
    (h : j < es.length) : ValidEntry (entAt es j) := by
  apply hv
  unfold entAt
  rw [List.getD_eq_getElem es default h]
  exact List.getElem_mem h

/-- Building the remaining entries of `es` on top of a buffer that decodes the
first `j` of them yields a buffer decoding all of `es`. -/
theorem buildAux_decodes {es : List Entry} (hv : ValidEntries es) {t m : Nat}
    (hm : es.length ≤ m) (hoffb : offAt es es.length < 65536) :
    ∀ k j b, es.length - j ≤ k → j ≤ es.length → Decodes b t m (es.take j) →
      ∃ b', buildAux j b (es.drop j) = .ok b' ∧ Decodes b' t m es := by
  intro k
  induction k with
  | zero =>
    intro j b hk hj hd
    have hj' : j = es.length := by omega
    subst hj'
    rw [List.drop_of_length_le (Nat.le_refl _)]
    exact ⟨b, rfl, by rwa [List.take_of_length_le (Nat.le_refl _)] at hd⟩
  | succ k ih =>
    intro j b hk hj hd
    by_cases hjl : j < es.length
    · rw [drop_cons_entAt hjl]
      have hjt : (es.take j).length = j := by
        rw [List.length_take]
        omega
      have hstep := appendKV_step hd (by omega) (entAt_valid hv hjl)
        (by
          rw [hjt, offAt_take (Nat.le_refl _)]
          have h1 : offAt es j + entrySize (entAt es j) = offAt es (j + 1) :=
            (offAt_succ_of_lt hjl).symm
          have h2 : offAt es (j + 1) ≤ offAt es es.length := offAt_mono (by omega)
          omega)
      rw [hjt] at hstep
      obtain ⟨b2, hb2, hdb2⟩ := hstep
      rw [← take_succ_entAt hjl] at hdb2
      obtain ⟨b', hb', hdb'⟩ := ih (j + 1) b2 (by omega) (by omega) hdb2
      refine ⟨b', ?_, hdb'⟩
      show (nodeAppendKV b j (entAt es j).ptr (entAt es j).key (entAt es j).val >>=
          fun b3 => buildAux (j + 1) b3 (es.drop (j + 1))) = .ok b'
      rw [hb2, ok_bind, hb']
    · have hj' : j = es.length := by omega
      subst hj'
      rw [List.drop_of_length_le (Nat.le_refl _)]
      exact ⟨b, rfl, by rwa [List.take_of_length_le (Nat.le_refl _)] at hd⟩

/-- Building a node from scratch (as `buildNode` does) succeeds and produces a
buffer decoding exactly the given entries. -/
theorem buildNode_decodes {t : Nat} (ht : t < 65536) {es : List Entry}
    (hv : ValidEntries es) (hlen16 : es.length < 65536)
    (hoffb : offAt es es.length < 65536) :
    ∃ b, buildNode t es = .ok b ∧ Decodes b t es.length es := by
  have hbase : Decodes (setHeader zeroBuf t es.length) t es.length [] := by
    refine ⟨?_, ?_, ?_, by simp, ?_, ?_, ?_⟩
    · unfold setHeader
      exact byteVals_put16 (byteVals_put16 byteVals_zeroBuf _ _) _ _
    · unfold setHeader
      rw [get16_put16_out (by omega), get16_put16_self]
      exact Nat.mod_eq_of_lt ht
    · unfold setHeader
      rw [get16_put16_self]
      exact Nat.mod_eq_of_lt hlen16
    · intro i hi
      simp at hi
    · intro i h1 h2
      simp at h2
      omega
    · intro i hi
      simp at hi
  exact buildAux_decodes hv (Nat.le_refl _) hoffb es.length 0 _ (by omega)
    (by omega) hbase

/-- Copying a contiguous range of entries from a decoded source into a
partially built destination (as `nodeAppendRange` does) succeeds and extends
the destination's decoding by that range. -/
theorem appendRange_decodes {src : Buf} {ts ms : Nat} {fs : List Entry}
    (hsrc : Decodes src ts ms fs) (hvfs : ValidEntries fs) {t m : Nat} :
    ∀ cnt s0 dst L, Decodes dst t m L → s0 + cnt ≤ fs.length →
      L.length + cnt ≤ m →
      offAt (L ++ (fs.drop s0).take cnt) (L.length + cnt) < 65536 →
      ∃ dst', nodeAppendRange dst src L.length s0 cnt = .ok dst' ∧
        Decodes dst' t m (L ++ (fs.drop s0).take cnt) := by
  intro cnt
  induction cnt with
  | zero =>
    intro s0 dst L hdst hs hl hb
    refine ⟨dst, rfl, ?_⟩
    simpa using hdst
  | succ cnt ih =>
    intro s0 dst L hdst hs hl hb
    have hs0 : s0 < fs.length := by omega
    have hslice : (fs.drop s0).take (cnt + 1) =
        entAt fs s0 :: (fs.drop (s0 + 1)).take cnt := by
      rw [drop_cons_entAt hs0, List.take_succ_cons]
    have hT : L ++ (fs.drop s0).take (cnt + 1) =
        (L ++ [entAt fs s0]) ++ (fs.drop (s0 + 1)).take cnt := by
      rw [hslice, List.append_cons]
    have hev := entAt_valid hvfs hs0
    have hstepb : offAt L L.length + entrySize (entAt fs s0) < 65536 := by
      have e1 : offAt (L ++ (fs.drop s0).take (cnt + 1)) (L.length + 1) =
          offAt L L.length + entrySize (entAt fs s0) := by
        rw [hT, offAt_append_left _ (by simp), offAt_append_succ]
      have e2 : offAt (L ++ (fs.drop s0).take (cnt + 1)) (L.length + 1) ≤
          offAt (L ++ (fs.drop s0).take (cnt + 1)) (L.length + (cnt + 1)) :=
        offAt_mono (by omega)
      omega
    obtain ⟨dst2, hdst2eq, hdst2⟩ := appendKV_step hdst (by omega) hev hstepb
    have hrecb : offAt ((L ++ [entAt fs s0]) ++ (fs.drop (s0 + 1)).take cnt)
        ((L ++ [entAt fs s0]).length + cnt) < 65536 := by
      rw [← hT]
      have hidx : (L ++ [entAt fs s0]).length + cnt = L.length + (cnt + 1) := by
        simp
        omega
      rw [hidx]
      exact hb
    obtain ⟨dst', hd'eq, hd'⟩ := ih (s0 + 1) dst2 (L ++ [entAt fs s0]) hdst2
      (by omega) (by simp; omega) hrecb
    refine ⟨dst', ?_, ?_⟩
    · show (getPtr src s0 >>= fun p => getKey src s0 >>= fun k =>
          getVal src s0 >>= fun v =>
          nodeAppendKV dst L.length p k v >>= fun new2 =>
          nodeAppendRange new2 src (L.length + 1) (s0 + 1) cnt) = .ok dst'
      rw [hsrc.getPtr_eq hs0, ok_bind, hsrc.getKey_eq hs0, ok_bind,
        hsrc.getVal_eq hs0, ok_bind, hdst2eq, ok_bind]
      have hlen1 : (L ++ [entAt fs s0]).length = L.length + 1 := by simp
      rw [hlen1] at hd'eq
      exact hd'eq
    · rw [hT]
      exact hd'

/-! Entry-level facts used by the splitter -/

theorem offAt_add (es : List Entry) (k i : Nat) :
    offAt es (k + i) = offAt es k + offAt (es.drop k) i := by
  unfold offAt
  rw [List.take_add, List.map_append, List.sum_append]

theorem valid_take {es : List Entry} (hv : ValidEntries es) (k : Nat) :
    ValidEntries (es.take k) := fun e he => hv e (List.mem_of_mem_take he)

theorem valid_drop {es : List Entry} (hv : ValidEntries es) (k : Nat) :
    ValidEntries (es.drop k) := fun e he => hv e (List.mem_of_mem_drop he)

theorem entrySize_le_of_valid {e : Entry} (he : ValidEntry e) :
    entrySize e ≤ 4004 := by
  obtain ⟨h1, h2, _, _, _⟩ := he
  unfold entrySize
  unfold BTREE_MAX_KEY_SIZE at h1
  unfold BTREE_MAX_VAL_SIZE at h2
  omega

theorem offAt_le_of_valid {es : List Entry} (hv : ValidEntries es) (k : Nat) :
    offAt es k ≤ 4004 * k := by
  induction k with
  | zero => simp [offAt_zero]
  | succ k ih =>
    by_cases hk : k < es.length
    · rw [offAt_succ_of_lt hk]
      have := entrySize_le_of_valid (entAt_valid hv hk)
      omega
    · rw [offAt_of_length_le (by omega), ← offAt_of_length_le (show es.length ≤ k by omega)]
      omega

theorem offAt_one_le {es : List Entry} (hv : ValidEntries es) :
    offAt es 1 ≤ 4004 := by
  have := offAt_le_of_valid hv 1
  omega

/-! Simulation of the split2 loops at the entry level -/

theorem split2Dec_ok {old : Buf} {t m : Nat} {es : List Entry}
    (hd : Decodes old t m es) (hfull : es.length = m) :
    ∀ k fuel, k ≤ m → k < fuel → split2Dec old fuel k = .ok (decN es k) := by
  intro k
  induction k with
  | zero =>
    intro fuel _ hf
    obtain ⟨f, rfl⟩ : ∃ f, fuel = f + 1 := ⟨fuel - 1, by omega⟩
    show (getOffset old 0 >>= fun off =>
      if 4 + 8 * 0 + 2 * 0 + off > BTREE_PAGE_SIZE then
        split2Dec old f (wsub 0 1) else .ok 0) = .ok (decN es 0)
    rw [hd.getOffset_eq (by omega), ok_bind,
      if_neg (by rw [offAt_zero]; unfold BTREE_PAGE_SIZE; omega)]
    rfl
  | succ k ih =>
    intro fuel hk hf
    obtain ⟨f, rfl⟩ : ∃ f, fuel = f + 1 := ⟨fuel - 1, by omega⟩
    have hm16 : m < 65536 := hd.2.2.1 ▸ get16_lt hd.1 2
    show (getOffset old (k + 1) >>= fun off =>
      if 4 + 8 * (k + 1) + 2 * (k + 1) + off > BTREE_PAGE_SIZE then
        split2Dec old f (wsub (k + 1) 1) else .ok (k + 1)) = .ok (decN es (k + 1))
    rw [hd.getOffset_eq (by omega), ok_bind]
    have harith : 4 + 8 * (k + 1) + 2 * (k + 1) + offAt es (k + 1) =
        4 + 10 * (k + 1) + offAt es (k + 1) := by ring
    rw [harith]
    show (if 4 + 10 * (k + 1) + offAt es (k + 1) > BTREE_PAGE_SIZE then _ else _) = _
    unfold decN
    by_cases hc : 4 + 10 * (k + 1) + offAt es (k + 1) > BTREE_PAGE_SIZE
    · rw [if_pos hc, if_pos hc]
      have hw : wsub (k + 1) 1 = k := by
        unfold wsub
        have h1 : (1 : Nat) % 65536 = 1 := by omega
        rw [h1]
        omega
      rw [hw]
      exact ih f (by omega) (by omega)
    · rw [if_neg hc, if_neg hc]

theorem decN_le (es : List Entry) (k : Nat) : decN es k ≤ k := by
  induction k with
  | zero => simp [decN]
  | succ k ih =>
    unfold decN
    by_cases hc : 4 + 10 * (k + 1) + offAt es (k + 1) > BTREE_PAGE_SIZE
    · rw [if_pos hc]; omega
    · rw [if_neg hc]

theorem decN_ge_one {es : List Entry} (hv : ValidEntries es) :
    ∀ k, 1 ≤ k → 1 ≤ decN es k := by
  intro k
  induction k with
  | zero => omega
  | succ k ih =>
    intro _
    unfold decN
    by_cases hc : 4 + 10 * (k + 1) + offAt es (k + 1) > BTREE_PAGE_SIZE
    · rw [if_pos hc]
      rcases Nat.eq_zero_or_pos k with rfl | hk
      · exfalso
        have h1 := offAt_one_le hv
        unfold BTREE_PAGE_SIZE at hc
        simp only [Nat.zero_add] at hc
        omega
      · exact ih hk
    · rw [if_neg hc]
      omega

theorem decN_fits {es : List Entry} (hv : ValidEntries es) :
    ∀ k, 1 ≤ k → 4 + 10 * decN es k + offAt es (decN es k) ≤ BTREE_PAGE_SIZE := by
  intro k
  induction k with
  | zero => omega
  | succ k ih =>
    intro _
    unfold decN
    by_cases hc : 4 + 10 * (k + 1) + offAt es (k + 1) > BTREE_PAGE_SIZE
    · rw [if_pos hc]
      rcases Nat.eq_zero_or_pos k with rfl | hk
      · exfalso
        have h1 := offAt_one_le hv
        unfold BTREE_PAGE_SIZE at hc
        simp only [Nat.zero_add] at hc
        omega
      · exact ih hk
    · rw [if_neg hc]
      omega

theorem split2Inc_ok {old : Buf} {t m : Nat} {es : List Entry}
    (hd : Decodes old t m es) (hfull : es.length = m)
    (hnb : nbytesSpec es + 4 < 65536) :
    ∀ fuel fuel2 k, k ≤ m → m - k < fuel → m - k < fuel2 →
      split2Inc old fuel k = .ok (incN es m fuel2 k) := by
  have hm16 : m < 65536 := hd.2.2.1 ▸ get16_lt hd.1 2
  have hnbv : nbytes old = .ok (nbytesSpec es) := hd.nbytes_eq hfull
  have hnbspec : nbytesSpec es = 4 + 10 * m + offAt es m := by
    unfold nbytesSpec
    rw [hfull]
  intro fuel
  induction fuel with
  | zero => intro fuel2 k _ hf _; omega
  | succ fuel ih =>
    intro fuel2 k hk hf hf2
    obtain ⟨f2, rfl⟩ : ∃ f2, fuel2 = f2 + 1 := ⟨fuel2 - 1, by omega⟩
    show (getOffset old k >>= fun off =>
      (nbytes old >>= fun nb =>
        if wadd (wsub nb (4 + 8 * k + 2 * k + off)) 4 > BTREE_PAGE_SIZE then
          split2Inc old fuel (wadd k 1) else .ok k)) = _
    rw [hd.getOffset_eq (by omega), ok_bind, hnbv, ok_bind]
    have hoffm : offAt es k ≤ offAt es m := offAt_mono hk
    have hrb : wadd (wsub (nbytesSpec es) (4 + 8 * k + 2 * k + offAt es k)) 4 =
        4 + 10 * (m - k) + (offAt es m - offAt es k) := by
      unfold wadd wsub
      rw [hnbspec] at hnb ⊢
      omega
    rw [hrb]
    unfold incN
    by_cases hc : 4 + 10 * (m - k) + (offAt es m - offAt es k) > BTREE_PAGE_SIZE
    · rw [if_pos hc, if_pos hc]
      have hkm : k < m := by
        by_contra hge
        have hkm' : k = m := by omega
        subst hkm'
        unfold BTREE_PAGE_SIZE at hc
        omega
      have hwk : wadd k 1 = k + 1 := by
        unfold wadd
        exact Nat.mod_eq_of_lt (by omega)
      rw [hwk]
      exact ih f2 (k + 1) (by omega) (by omega) (by omega)
    · rw [if_neg hc, if_neg hc]

theorem incN_ge (es : List Entry) (m : Nat) :
    ∀ fuel k, k ≤ incN es m fuel k := by
  intro fuel
  induction fuel with
  | zero => intro k; simp [incN]
  | succ fuel ih =>
    intro k
    unfold incN
    by_cases hc : 4 + 10 * (m - k) + (offAt es m - offAt es k) > BTREE_PAGE_SIZE
    · rw [if_pos hc]
      have := ih (k + 1)
      omega
    · rw [if_neg hc]

theorem incN_le (es : List Entry) (m : Nat) :
    ∀ fuel k, k ≤ m → incN es m fuel k ≤ m := by
  intro fuel
  induction fuel with
  | zero => intro k hk; simpa [incN] using hk
  | succ fuel ih =>
    intro k hk
    unfold incN
    by_cases hc : 4 + 10 * (m - k) + (offAt es m - offAt es k) > BTREE_PAGE_SIZE
    · rw [if_pos hc]
      have hkm : k < m := by
        by_contra hge
        have hkm' : k = m := by omega
        subst hkm'
        unfold BTREE_PAGE_SIZE at hc
        omega
      exact ih (k + 1) (by omega)
    · rw [if_neg hc]
      exact hk

theorem incN_fits (es : List Entry) (m : Nat) :
    ∀ fuel k, k ≤ m → m - k < fuel →
      4 + 10 * (m - incN es m fuel k) +
        (offAt es m - offAt es (incN es m fuel k)) ≤ BTREE_PAGE_SIZE := by
  intro fuel
  induction fuel with
  | zero => intro k _ hf; omega
  | succ fuel ih =>
    intro k hk hf
    unfold incN
    by_cases hc : 4 + 10 * (m - k) + (offAt es m - offAt es k) > BTREE_PAGE_SIZE
    · rw [if_pos hc]
      have hkm : k < m := by
        by_contra hge
        have hkm' : k = m := by omega
        subst hkm'
        unfold BTREE_PAGE_SIZE at hc
        omega
      exact ih (k + 1) (by omega) (by omega)
    · rw [if_neg hc]
      omega

theorem setHeader_decodes {t n : Nat} (ht : t < 65536) (hn : n < 65536) :
    Decodes (setHeader zeroBuf t n) t n [] := by
  refine ⟨?_, ?_, ?_, by simp, ?_, ?_, ?_⟩
  · unfold setHeader
    exact byteVals_put16 (byteVals_put16 byteVals_zeroBuf _ _) _ _
  · unfold setHeader
    rw [get16_put16_out (by omega), get16_put16_self]
    exact Nat.mod_eq_of_lt ht
  · unfold setHeader
    rw [get16_put16_self]
    exact Nat.mod_eq_of_lt hn
  · intro i hi
    simp at hi
  · intro i h1 h2
    simp at h2
    omega
  · intro i hi
    simp at hi

/-- Running `nodeSplit2` on a buffer decoding a valid entry list with at least two
entries and total encoded size at most two pages succeeds: no fatal branch is
taken, the chosen split point is between 1 and the key count, the outputs
decode the two halves, and the right half fits in a page. -/
theorem nodeSplit2_built {es : List Entry} {t : Nat} (hv : ValidEntries es)
    (h2 : 2 ≤ es.length) (hnb : nbytesSpec es ≤ 2 * BTREE_PAGE_SIZE)
    {old : Buf} (hd : Decodes old t es.length es) (ht16 : t < 65536) :
    ∃ l r, nodeSplit2 zeroBuf zeroBuf old = .ok (l, r) ∧
      Decodes l t (splitPoint es) (es.take (splitPoint es)) ∧
      Decodes r t (es.length - splitPoint es) (es.drop (splitPoint es)) ∧
      1 ≤ splitPoint es ∧ splitPoint es ≤ es.length ∧
      nbytesSpec (es.drop (splitPoint es)) ≤ BTREE_PAGE_SIZE := by
  have hm16 : es.length < 65536 := hd.2.2.1 ▸ get16_lt hd.1 2
  have hnbval : nbytesSpec es = 4 + 10 * es.length + offAt es es.length := rfl
  have hpage : (2 : Nat) * BTREE_PAGE_SIZE = 8192 := rfl
  have hoffm16 : offAt es es.length < 65536 := by
    rw [hpage] at hnb
    omega
  have hspdef : splitPoint es =
      incN es es.length (es.length + 1) (decN es (es.length / 2)) := rfl
  have hk1ge : 1 ≤ decN es (es.length / 2) := decN_ge_one hv _ (by omega)
  have hk1le : decN es (es.length / 2) ≤ es.length / 2 := decN_le es _
  have hksge : 1 ≤ splitPoint es := by
    rw [hspdef]
    have := incN_ge es es.length (es.length + 1) (decN es (es.length / 2))
    omega
  have hksle : splitPoint es ≤ es.length := by
    rw [hspdef]
    exact incN_le es es.length _ _ (by omega)
  have hdec : split2Dec old (es.length / 2 + 2) (es.length / 2) =
      .ok (decN es (es.length / 2)) :=
    split2Dec_ok hd rfl _ _ (by omega) (by omega)
  have hinc : split2Inc old (es.length + 2) (decN es (es.length / 2)) =
      .ok (incN es es.length (es.length + 1) (decN es (es.length / 2))) :=
    split2Inc_ok hd rfl (by rw [hpage] at hnb; omega) _ _ _ (by omega)
      (by omega) (by omega)
  have hnright : wsub es.length (splitPoint es) = es.length - splitPoint es := by
    unfold wsub
    omega
  -- the left build
  have hoffk16 : offAt es (splitPoint es) < 65536 := by
    have := @offAt_mono es _ _ hksle
    omega
  have hdstl : Decodes (setHeader zeroBuf t (splitPoint es)) t (splitPoint es) [] :=
    setHeader_decodes ht16 (by omega)
  obtain ⟨l2, hl2eq, hl2dec⟩ := appendRange_decodes hd hv (splitPoint es) 0 _ []
    hdstl (by omega) (by simp)
    (by
      simp only [List.drop_zero, List.nil_append, List.length_nil, Nat.zero_add]
      rw [offAt_take (Nat.le_refl _)]
      omega)
  simp only [List.length_nil, List.drop_zero, List.nil_append] at hl2eq hl2dec
  -- the right build
  have hdropfull : (es.drop (splitPoint es)).take (es.length - splitPoint es) =
      es.drop (splitPoint es) :=
    List.take_of_length_le (by rw [List.length_drop])
  have hoffdrop : offAt es (splitPoint es) +
      offAt (es.drop (splitPoint es)) (es.length - splitPoint es) =
      offAt es es.length := by
    have := offAt_add es (splitPoint es) (es.length - splitPoint es)
    rw [show splitPoint es + (es.length - splitPoint es) = es.length by omega] at this
    omega
  have hdstr : Decodes (setHeader zeroBuf t (es.length - splitPoint es)) t
      (es.length - splitPoint es) [] :=
    setHeader_decodes ht16 (by omega)
  obtain ⟨r2, hr2eq, hr2dec⟩ := appendRange_decodes hd hv
    (es.length - splitPoint es) (splitPoint es) _ [] hdstr (by omega)
    (by simp)
    (by
      simp only [List.length_nil, List.nil_append, Nat.zero_add]
      rw [hdropfull]
      have hlendrop : (es.drop (splitPoint es)).length =
          es.length - splitPoint es := List.length_drop _ _
      rw [← hlendrop, ← offAt_of_length_le (Nat.le_refl _), hlendrop]
      omega)
  simp only [List.length_nil, List.nil_append] at hr2eq hr2dec
  rw [hdropfull] at hr2dec
  -- the right half fits
  have hrlen : (es.drop (splitPoint es)).length = es.length - splitPoint es :=
    List.length_drop _ _
  have hrnb : nbytes r2 = .ok (nbytesSpec (es.drop (splitPoint es))) :=
    hr2dec.nbytes_eq hrlen
  have hrfits : nbytesSpec (es.drop (splitPoint es)) ≤ BTREE_PAGE_SIZE := by
    have hfits := incN_fits es es.length (es.length + 1)
      (decN es (es.length / 2)) (by omega) (by omega)
    rw [← hspdef] at hfits
    unfold nbytesSpec
    rw [hrlen]
    have hoffdrop2 : offAt (es.drop (splitPoint es)) (es.length - splitPoint es) =
        offAt es es.length - offAt es (splitPoint es) := by
      have := @offAt_mono es _ _ hksle
      omega
    rw [hoffdrop2]
    omega
  -- assemble the equation
  refine ⟨l2, r2, ?_, hl2dec, hr2dec, hksge, hksle, hrfits⟩
  unfold nodeSplit2
  rw [hd.nkeys_eq, if_neg (by omega), hdec, ok_bind, if_neg (by omega),
    hinc, ok_bind, ← hspdef, if_neg (by omega)]
  dsimp only
  rw [hd.btype_eq, hnright, hl2eq, ok_bind, hr2eq, ok_bind, hrnb, ok_bind,
    if_pos hrfits]


theorem keysFrom_ok {b : Buf} {t m : Nat} {es : List Entry}
    (hd : Decodes b t m es) :
    ∀ cnt i, i + cnt ≤ es.length →
      keysFrom b cnt i = .ok (((es.drop i).take cnt).map Entry.key) := by
  intro cnt
  induction cnt with
  | zero => intro i h; rfl
  | succ cnt ih =>
    intro i h
    show (getKey b i >>= fun k => keysFrom b cnt (i + 1) >>=
      fun rest => .ok (k :: rest)) = _
    rw [hd.getKey_eq (by omega), ok_bind, ih (i + 1) (by omega), ok_bind]
    have hsplit : (es.drop i).take (cnt + 1) =
        entAt es i :: (es.drop (i + 1)).take cnt := by
      rw [drop_cons_entAt (show i < es.length by omega), List.take_succ_cons]
    rw [hsplit, List.map_cons]

theorem nodeKeys_ok {b : Buf} {t m : Nat} {es : List Entry}
    (hd : Decodes b t m es) (hfull : es.length = m) :
    nodeKeys b = .ok (es.map Entry.key) := by
  unfold nodeKeys
  rw [hd.nkeys_eq, ← hfull]
  have h := keysFrom_ok hd es.length 0 (by omega)
  rw [List.drop_zero, List.take_length] at h
  exact h

theorem nbytesSpec_le_of_valid {es : List Entry} (hv : ValidEntries es) :
    nbytesSpec es ≤ 4 + 4014 * es.length := by
  unfold nbytesSpec
  have := offAt_le_of_valid hv es.length
  omega

theorem two_le_of_big {es : List Entry} (hv : ValidEntries es)
    (hbig : BTREE_PAGE_SIZE < nbytesSpec es) : 2 ≤ es.length := by
  have h1 := nbytesSpec_le_of_valid hv
  unfold BTREE_PAGE_SIZE at hbig
  by_contra h
  interval_cases hlen : es.length <;> omega

theorem nbytesSpec_take {es : List Entry} {k : Nat} (hk : k ≤ es.length) :
    nbytesSpec (es.take k) = 4 + 10 * k + offAt es k := by
  unfold nbytesSpec
  rw [List.length_take, min_eq_left hk, offAt_take (Nat.le_refl _)]

theorem nbytesSpec_take_le {es : List Entry} {k : Nat} (hk : k ≤ es.length) :
    nbytesSpec (es.take k) ≤ nbytesSpec es := by
  rw [nbytesSpec_take hk]
  unfold nbytesSpec
  have := @offAt_mono es _ _ hk
  omega

/-- Running `nodeSplit3` on a node that already fits returns it unchanged. -/
theorem nodeSplit3_small {es : List Entry} {t : Nat} {old : Buf}
    (hd : Decodes old t es.length es)
    (hfit : nbytesSpec es ≤ BTREE_PAGE_SIZE) :
    nodeSplit3 old = .ok (1, [old]) := by
  unfold nodeSplit3
  rw [hd.nbytes_eq rfl, ok_bind, if_pos hfit]

/-- The `nodeSplit3` two-way case: the node is oversized but the left half of its
split fits. -/
theorem nodeSplit3_two {es : List Entry} {t : Nat} (hv : ValidEntries es)
    (hnb : nbytesSpec es ≤ 2 * BTREE_PAGE_SIZE) {old : Buf}
    (hd : Decodes old t es.length es) (ht16 : t < 65536)
    (hbig : BTREE_PAGE_SIZE < nbytesSpec es)
    (hfit : nbytesSpec (es.take (splitPoint es)) ≤ BTREE_PAGE_SIZE) :
    ∃ l r, nodeSplit3 old = .ok (2, [l, r]) ∧
      Decodes l t (splitPoint es) (es.take (splitPoint es)) ∧
      Decodes r t (es.length - splitPoint es) (es.drop (splitPoint es)) ∧
      nbytesSpec (es.drop (splitPoint es)) ≤ BTREE_PAGE_SIZE := by
  obtain ⟨l, r, heq2, hldec, hrdec, hksge, hksle, hrfits⟩ :=
    nodeSplit2_built hv (two_le_of_big hv hbig) hnb hd ht16
  have hL1len : (es.take (splitPoint es)).length = splitPoint es := by
    rw [List.length_take]
    omega
  have hlnb : nbytes l = .ok (nbytesSpec (es.take (splitPoint es))) :=
    hldec.nbytes_eq hL1len
  refine ⟨l, r, ?_, hldec, hrdec, hrfits⟩
  unfold nodeSplit3
  rw [hd.nbytes_eq rfl, ok_bind, if_neg (by omega), heq2, ok_bind]
  dsimp only
  rw [hlnb, ok_bind, if_pos hfit]

/-- The `nodeSplit3` three-way case: the node and the left half of its first
split are both oversized, and the second split's own left piece fits. -/
theorem nodeSplit3_three {es : List Entry} {t : Nat} (hv : ValidEntries es)
    (hnb : nbytesSpec es ≤ 2 * BTREE_PAGE_SIZE) {old : Buf}
    (hd : Decodes old t es.length es) (ht16 : t < 65536)
    (hbig : BTREE_PAGE_SIZE < nbytesSpec es)
    (hbig2 : BTREE_PAGE_SIZE < nbytesSpec (es.take (splitPoint es)))
    (hfit3 : nbytesSpec ((es.take (splitPoint es)).take
      (splitPoint (es.take (splitPoint es)))) ≤ BTREE_PAGE_SIZE) :
    ∃ ll mid r, nodeSplit3 old = .ok (3, [ll, mid, r]) ∧
      Decodes ll t (splitPoint (es.take (splitPoint es)))
        ((es.take (splitPoint es)).take (splitPoint (es.take (splitPoint es)))) ∧
      Decodes mid t
        ((es.take (splitPoint es)).length - splitPoint (es.take (splitPoint es)))
        ((es.take (splitPoint es)).drop (splitPoint (es.take (splitPoint es)))) ∧
      Decodes r t (es.length - splitPoint es) (es.drop (splitPoint es)) ∧
      nbytesSpec ((es.take (splitPoint es)).drop
        (splitPoint (es.take (splitPoint es)))) ≤ BTREE_PAGE_SIZE ∧
      nbytesSpec (es.drop (splitPoint es)) ≤ BTREE_PAGE_SIZE := by
  obtain ⟨l, r, heq2, hldec, hrdec, hksge, hksle, hrfits⟩ :=
    nodeSplit2_built hv (two_le_of_big hv hbig) hnb hd ht16
  have hL1len : (es.take (splitPoint es)).length = splitPoint es := by
    rw [List.length_take]
    omega
  have hlnb : nbytes l = .ok (nbytesSpec (es.take (splitPoint es))) :=
    hldec.nbytes_eq hL1len
  have hldec2 : Decodes l t (es.take (splitPoint es)).length
      (es.take (splitPoint es)) := by
    rw [hL1len]
    exact hldec
  obtain ⟨ll, mid, heq3, hlldec, hmiddec, hks2ge, hks2le, hmidfits⟩ :=
    nodeSplit2_built (valid_take hv _) (two_le_of_big (valid_take hv _) hbig2)
      (le_trans (nbytesSpec_take_le hksle) hnb) hldec2 ht16
  have hLL1len : ((es.take (splitPoint es)).take
      (splitPoint (es.take (splitPoint es)))).length =
      splitPoint (es.take (splitPoint es)) := by
    rw [List.length_take]
    omega
  have hllnb : nbytes ll = .ok (nbytesSpec ((es.take (splitPoint es)).take
      (splitPoint (es.take (splitPoint es))))) := hlldec.nbytes_eq hLL1len
  refine ⟨ll, mid, r, ?_, hlldec, hmiddec, hrdec, hmidfits, hrfits⟩
  unfold nodeSplit3
  rw [hd.nbytes_eq rfl, ok_bind, if_neg (by omega), heq2, ok_bind]
  dsimp only
  rw [hlnb, ok_bind, if_neg (by omega), heq3, ok_bind]
  dsimp only
  rw [hllnb, ok_bind, if_pos hfit3]

/-- The `nodeSplit3` fatal case: the node, the left half of its first split and
the left piece of the second split are all oversized, so the source's final
`log.Fatal` check fires. -/
theorem nodeSplit3_fatal {es : List Entry} {t : Nat} (hv : ValidEntries es)
    (hnb : nbytesSpec es ≤ 2 * BTREE_PAGE_SIZE) {old : Buf}
    (hd : Decodes old t es.length es) (ht16 : t < 65536)
    (hbig : BTREE_PAGE_SIZE < nbytesSpec es)
    (hbig2 : BTREE_PAGE_SIZE < nbytesSpec (es.take (splitPoint es)))
    (hbig3 : BTREE_PAGE_SIZE < nbytesSpec ((es.take (splitPoint es)).take
      (splitPoint (es.take (splitPoint es))))) :
    nodeSplit3 old = .error .fatal := by
  obtain ⟨l, r, heq2, hldec, hrdec, hksge, hksle, hrfits⟩ :=
    nodeSplit2_built hv (two_le_of_big hv hbig) hnb hd ht16
  have hL1len : (es.take (splitPoint es)).length = splitPoint es := by
    rw [List.length_take]
    omega
  have hlnb : nbytes l = .ok (nbytesSpec (es.take (splitPoint es))) :=
    hldec.nbytes_eq hL1len
  have hldec2 : Decodes l t (es.take (splitPoint es)).length
      (es.take (splitPoint es)) := by
    rw [hL1len]
    exact hldec
  obtain ⟨ll, mid, heq3, hlldec, hmiddec, hks2ge, hks2le, hmidfits⟩ :=
    nodeSplit2_built (valid_take hv _) (two_le_of_big (valid_take hv _) hbig2)
      (le_trans (nbytesSpec_take_le hksle) hnb) hldec2 ht16
  have hLL1len : ((es.take (splitPoint es)).take
      (splitPoint (es.take (splitPoint es)))).length =
      splitPoint (es.take (splitPoint es)) := by
    rw [List.length_take]
    omega
  have hllnb : nbytes ll = .ok (nbytesSpec ((es.take (splitPoint es)).take
      (splitPoint (es.take (splitPoint es))))) := hlldec.nbytes_eq hLL1len
  unfold nodeSplit3
  rw [hd.nbytes_eq rfl, ok_bind, if_neg (by omega), heq2, ok_bind]
  dsimp only
  rw [hlnb, ok_bind, if_neg (by omega), heq3, ok_bind]
  dsimp only
  rw [hllnb, ok_bind, if_neg (by omega)]

/-! Ordering facts about `bytes.Compare` -/

theorem compareBytes_eq_iff {a b : List Nat} :
    compareBytes a b = .eq ↔ a = b := by
  induction a generalizing b with
  | nil =>
    cases b with
    | nil => simp [compareBytes]
    | cons y ys => simp [compareBytes]
  | cons x xs ih =>
    cases b with
    | nil => simp [compareBytes]
    | cons y ys =>
      unfold compareBytes
      by_cases h1 : x < y
      · rw [if_pos h1]
        simp
        omega
      · rw [if_neg h1]
        by_cases h2 : y < x
        · rw [if_pos h2]
          simp
          omega
        · rw [if_neg h2]
          rw [ih]
          have hxy : x = y := by omega
          simp [hxy]

theorem compareBytes_flip {a b : List Nat} :
    compareBytes a b = .lt ↔ compareBytes b a = .gt := by
  induction a generalizing b with
  | nil =>
    cases b with
    | nil => simp [compareBytes]
    | cons y ys => simp [compareBytes]
  | cons x xs ih =>
    cases b with
    | nil => simp [compareBytes]
    | cons y ys =>
      unfold compareBytes
      by_cases h1 : x < y
      · rw [if_pos h1, if_neg (by omega), if_pos h1]
        simp
      · rw [if_neg h1]
        by_cases h2 : y < x
        · rw [if_pos h2, if_pos h2]
          simp
        · rw [if_neg h2, if_neg h1, if_neg h2]
          exact ih

theorem compareBytes_trans_lt {a b c : List Nat}
    (hab : compareBytes a b = .lt) (hbc : compareBytes b c = .lt) :
    compareBytes a c = .lt := by
  induction a generalizing b c with
  | nil =>
    cases c with
    | nil =>
      cases b with
      | nil => simp [compareBytes] at hab
      | cons y ys => simp [compareBytes] at hbc
    | cons z zs => simp [compareBytes]
  | cons x xs ih =>
    cases b with
    | nil => simp [compareBytes] at hab
    | cons y ys =>
      cases c with
      | nil => simp [compareBytes] at hbc
      | cons z zs =>
        unfold compareBytes at hab hbc ⊢
        by_cases h1 : x < y
        · rw [if_pos h1] at hab
          by_cases h2 : y < z
          · rw [if_pos (by omega)]
          · rw [if_neg h2] at hbc
            by_cases h3 : z < y
            · rw [if_pos h3] at hbc
              simp at hbc
            · rw [if_neg h3] at hbc
              have hyz : y = z := by omega
              rw [if_pos (by omega)]
        · rw [if_neg h1] at hab
          by_cases h1' : y < x
          · rw [if_pos h1'] at hab
            simp at hab
          · rw [if_neg h1'] at hab
            have hxy : x = y := by omega
            by_cases h2 : y < z
            · rw [if_pos (by omega)]
            · rw [if_neg h2] at hbc
              by_cases h3 : z < y
              · rw [if_pos h3] at hbc
                simp at hbc
              · rw [if_neg h3] at hbc
                rw [if_neg (by omega), if_neg (by omega)]
                exact ih hab hbc


/-- When the lookup key is smaller than every key, the scan loop returns the
uint16 wraparound of `-1`. -/
theorem nodeLookupLE_below {b : Buf} {t : Nat} {es : List Entry}
    (hd : Decodes b t es.length es) (h1 : 1 ≤ es.length) {key : List Nat}
    (hgt : compareBytes (entAt es 0).key key = .gt) :
    nodeLookupLE b key = .ok 65535 := by
  unfold nodeLookupLE
  rw [hd.nkeys_eq]
  obtain ⟨f, hf⟩ : ∃ f, es.length + 1 = f + 1 := ⟨es.length, rfl⟩
  rw [hf]
  show (if 0 < nkeys b then _ else _) = _
  rw [hd.nkeys_eq, if_pos (by omega)]
  show (getKey b 0 >>= fun k =>
    match compareBytes k key with
    | .eq => Except.ok 0
    | .gt => Except.ok (wsub 0 1)
    | .lt => lookupLoop b key f (0 + 1)) = _
  rw [hd.getKey_eq (by omega), ok_bind, hgt]
  rfl

/-- The scan loop of `nodeLookupLE` on a sorted node, starting at a position
below which every key is smaller than the lookup key, returns the greatest
index whose key is at most the lookup key. -/
theorem lookupLoop_spec {b : Buf} {t : Nat} {es : List Entry}
    (hd : Decodes b t es.length es) (hsort : SortedKeys es) {key : List Nat}
    (hle0 : compareBytes (entAt es 0).key key ≠ .gt) (h1 : 1 ≤ es.length) :
    ∀ fuel i, i ≤ es.length → es.length - i < fuel →
      (∀ j, j < i → compareBytes (entAt es j).key key = .lt) →
      ∃ res, lookupLoop b key fuel i = .ok res ∧ res < es.length ∧
        compareBytes (entAt es res).key key ≠ .gt ∧
        (∀ j, j < es.length → compareBytes (entAt es j).key key ≠ .gt →
          j ≤ res) := by
  have hm16 : es.length < 65536 := hd.2.2.1 ▸ get16_lt hd.1 2
  intro fuel
  induction fuel with
  | zero => intro i _ hf; omega
  | succ fuel ih =>
    intro i hi hf hinv
    have hstep : lookupLoop b key (fuel + 1) i =
        (if i < nkeys b then do
          let k ← getKey b i
          match compareBytes k key with
          | .eq => Except.ok i
          | .gt => Except.ok (wsub i 1)
          | .lt => lookupLoop b key fuel (i + 1)
        else Except.ok (wsub i 1)) := rfl
    by_cases hil : i < es.length
    · rw [hstep, hd.nkeys_eq, if_pos hil, hd.getKey_eq hil, ok_bind]
      cases hc : compareBytes (entAt es i).key key with
      | eq =>
        refine ⟨i, rfl, hil, by rw [hc]; simp, ?_⟩
        intro j hj hjle
        by_contra hji
        have hij : i < j := by omega
        have hlt := hsort i j hij hj
        have hik : (entAt es i).key = key := compareBytes_eq_iff.mp hc
        rw [hik] at hlt
        exact hjle (compareBytes_flip.mp hlt)
      | gt =>
        rcases Nat.eq_zero_or_pos i with rfl | hipos
        · exact absurd hc hle0
        · have hw : wsub i 1 = i - 1 := by
            unfold wsub
            omega
          refine ⟨i - 1, by rw [hw], by omega, ?_, ?_⟩
          · rw [hinv (i - 1) (by omega)]
            simp
          · intro j hj hjle
            by_contra hji
            have hij : i ≤ j := by omega
            rcases Nat.eq_or_lt_of_le hij with rfl | hij'
            · exact hjle hc
            · have hlt := hsort i j hij' hj
              have h1' : compareBytes key (entAt es i).key = .lt :=
                compareBytes_flip.mpr hc
              have h2' : compareBytes key (entAt es j).key = .lt :=
                compareBytes_trans_lt h1' hlt
              exact hjle (compareBytes_flip.mp h2')
      | lt =>
        refine ih (i + 1) (by omega) (by omega) ?_
        intro j hj
        rcases Nat.lt_or_ge j i with hji | hji
        · exact hinv j hji
        · have hjeq : j = i := by omega
          rw [hjeq]
          exact hc
    · have hieq : i = es.length := by omega
      rw [hstep, hd.nkeys_eq, if_neg (by omega)]
      have hw : wsub i 1 = es.length - 1 := by
        unfold wsub
        omega
      refine ⟨es.length - 1, by rw [hw], by omega, ?_, ?_⟩
      · rw [hinv (es.length - 1) (by omega)]
        simp
      · intro j hj _
        omega

/-- Evaluating `nodeLookupLE` on the fresh zero buffer (which is what `treeInsert`
actually queries) always yields the uint16 wraparound of `-1`. -/
theorem nodeLookupLE_zeroBuf (key : List Nat) :
    nodeLookupLE zeroBuf key = .ok 65535 := rfl

/-- Every `treeInsert` call on a byte-valued buffer with a recognized node
type faults: the slot index is looked up in the fresh zero buffer, which
yields 65535, and the first indexed access (`getKey` on a leaf, `getPtr` on an
internal node) is out of range. -/
theorem treeInsert_fatal (fuel : Nat) (tree : BTree) (node : Buf)
    (key val : List Nat) (hbv : ByteVals node)
    (ht : btype node = BNODE_LEAF ∨ btype node = BNODE_NODE) :
    treeInsert (fuel + 1) tree node key val = .error .fatal := by
  have hnk : nkeys node < 65536 := get16_lt hbv 2
  show (nodeLookupLE zeroBuf key >>= fun idx =>
    if btype node = BNODE_LEAF then
      (getKey node idx >>= fun k =>
        if key = k then
          (leafUpdate zeroBuf node idx key val >>= fun b => .ok (b, tree))
        else
          (leafInsert node node idx key val >>= fun _ => .ok (zeroBuf, tree)))
    else if btype node = BNODE_NODE then
      (getPtr node idx >>= fun kptr =>
        treeInsert fuel tree node key val >>= fun res =>
        nodeSplit3 res.1 >>= fun spl =>
        nodeReplaceKidN (treeDel res.2 kptr) zeroBuf node idx
          (spl.2.take spl.1))
    else .error .badNode) = .error .fatal
  rw [nodeLookupLE_zeroBuf, ok_bind]
  rcases ht with h | h
  · rw [if_pos h]
    have hk : getKey node 65535 = .error .fatal := by
      unfold getKey
      rw [if_neg (by omega)]
    rw [hk, error_bind]
  · have hne : ¬(btype node = BNODE_LEAF) := by
      rw [h]
      unfold BNODE_NODE BNODE_LEAF
      omega
    rw [if_neg hne, if_pos h]
    have hp : getPtr node 65535 = .error .fatal := by
      unfold getPtr
      rw [if_neg (by omega)]
    rw [hp, error_bind]

theorem tmpName_ne (path : String) (r : Nat) :
    path ++ ".tmp." ++ toString r ≠ path := by
  intro h
  have hl := congrArg String.length h
  rw [String.length_append, String.length_append] at hl
  have h5 : (".tmp." : String).length = 5 := rfl
  omega

/-- Claim C8: `SaveData2` either succeeds — the target path then holds exactly
the new data and the temporary file is gone — or returns an error; and on any
failure at the open, write or sync step the whole filesystem, in particular
the target path's previous contents, is unchanged and the temporary file has
been removed. -/
theorem saveData2_spec (fs : FS) (path : String) (data : List Nat) (r : Nat)
    (oc : FsOutcome) :
    ((SaveData2 fs path data r oc).1 = .ok () →
      (SaveData2 fs path data r oc).2 path = some data ∧
      (SaveData2 fs path data r oc).2 (path ++ ".tmp." ++ toString r) = none) ∧
    ((fs (path ++ ".tmp." ++ toString r)).isSome = true ∨ oc.openOk = false ∨
        oc.writeOk = false ∨ oc.syncOk = false →
      (SaveData2 fs path data r oc).1 = .error () ∧
      ∀ q, (SaveData2 fs path data r oc).2 q = fs q) := by
  unfold SaveData2
  by_cases h1 : (fs (path ++ ".tmp." ++ toString r)).isSome = true ∨
      oc.openOk = false
  · rw [if_pos h1]
    constructor
    · intro h
      exact absurd h (by simp)
    · intro _
      exact ⟨rfl, fun q => rfl⟩
  · rw [if_neg h1]
    have hnone : fs (path ++ ".tmp." ++ toString r) = none :=
      Option.not_isSome_iff_eq_none.mp fun hh => h1 (Or.inl hh)
    by_cases h2 : oc.writeOk = false
    · rw [if_pos h2]
      constructor
      · intro h
        exact absurd h (by simp)
      · intro _
        refine ⟨rfl, fun q => ?_⟩
        show (if q = path ++ ".tmp." ++ toString r then none
          else if q = path ++ ".tmp." ++ toString r then some [] else fs q) = fs q
        by_cases hq : q = path ++ ".tmp." ++ toString r
        · rw [if_pos hq, hq, hnone]
        · rw [if_neg hq, if_neg hq]
    · rw [if_neg h2]
      by_cases h3 : oc.syncOk = false
      · rw [if_pos h3]
        constructor
        · intro h
          exact absurd h (by simp)
        · intro _
          refine ⟨rfl, fun q => ?_⟩
          show (if q = path ++ ".tmp." ++ toString r then none
            else if q = path ++ ".tmp." ++ toString r then some data
            else if q = path ++ ".tmp." ++ toString r then some [] else fs q) = fs q
          by_cases hq : q = path ++ ".tmp." ++ toString r
          · rw [if_pos hq, hq, hnone]
          · rw [if_neg hq, if_neg hq, if_neg hq]
      · rw [if_neg h3]
        by_cases h4 : oc.renameOk = false
        · rw [if_pos h4]
          constructor
          · intro h
            exact absurd h (by simp)
          · intro hdis
            rcases hdis with h | h | h | h
            · exact absurd (Or.inl h) h1
            · exact absurd (Or.inr h) h1
            · exact absurd h h2
            · exact absurd h h3
        · rw [if_neg h4]
          constructor
          · intro _
            constructor
            · show (if path = path then some data else _) = some data
              rw [if_pos rfl]
            · show (if path ++ ".tmp." ++ toString r = path then some data
                else if path ++ ".tmp." ++ toString r = path ++ ".tmp." ++ toString r
                then none else _) = none
              rw [if_neg (tmpName_ne path r), if_pos rfl]
          · intro hdis
            rcases hdis with h | h | h | h
            · exact absurd (Or.inl h) h1
            · exact absurd (Or.inr h) h1
            · exact absurd h h2
            · exact absurd h h3

/-- Claim C10: when open, write and sync succeed but the final rename fails,
`SaveData2` returns the rename error, yet the temporary file is NOT removed —
it remains with the full data — because the deferred cleanup only fires for
errors assigned to the captured `err`, and the rename's result is returned
directly without being assigned to it; the target path keeps its previous
contents. -/
theorem saveData2_renameFail (fs : FS) (path : String) (data : List Nat)
    (r : Nat) (oc : FsOutcome)
    (hopen : fs (path ++ ".tmp." ++ toString r) = none)
    (h1 : oc.openOk = true) (h2 : oc.writeOk = true) (h3 : oc.syncOk = true)
    (h4 : oc.renameOk = false) :
    (SaveData2 fs path data r oc).1 = .error () ∧
    (SaveData2 fs path data r oc).2 (path ++ ".tmp." ++ toString r) =
      some data ∧
    (SaveData2 fs path data r oc).2 path = fs path := by
  unfold SaveData2
  rw [if_neg (by rw [hopen, h1]; simp), if_neg (by rw [h2]; simp),
    if_neg (by rw [h3]; simp), if_pos h4]
  refine ⟨rfl, ?_, ?_⟩
  · show (if path ++ ".tmp." ++ toString r = path ++ ".tmp." ++ toString r
      then some data else _) = some data
    rw [if_pos rfl]
  · show (if path = path ++ ".tmp." ++ toString r then some data
      else if path = path ++ ".tmp." ++ toString r then some [] else fs path) =
      fs path
    have hne : path ≠ path ++ ".tmp." ++ toString r :=
      fun h => tmpName_ne path r h.symm
    rw [if_neg hne, if_neg hne]


/-- Claim C1: on a leaf whose entries are strictly ascending and a fresh key,
`treeInsert` is claimed to return the leaf with the new entry inserted at the
floor index computed on the input node. The code instead looks the index up
in the fresh zero buffer (index 65535) and faults on the out-of-range
`getKey`: inserting `"b"` into the leaf `["a" → "1"]` returns a fatal error,
not a two-entry leaf. -/
theorem claimC1_treeInsert_leaf_faults :
    (buildNode BNODE_LEAF leafOne >>= fun node =>
      treeInsert 1 tree0 node [98] [50]) = .error .fatal := by
  obtain ⟨b, hb, hd⟩ := buildNode_decodes (show BNODE_LEAF < 65536 by decide)
    (show ValidEntries leafOne by decide) (by decide) (by decide)
  rw [hb, ok_bind]
  exact treeInsert_fatal 0 tree0 b [98] [50] hd.1 (Or.inl hd.btype_eq)

/-- Claim C2: on an internal node, `treeInsert` is claimed to read the child
page at `childPointer(idx)` and recurse into that child. The code never calls
`tree.get` (it recurses on the current node) and, before any recursion, it
faults: the index is looked up in the fresh zero buffer (65535) and
`getPtr 65535` is out of range. Inserting into the one-entry internal node
returns a fatal error. -/
theorem claimC2_treeInsert_internal_faults :
    (buildNode BNODE_NODE nodeOne >>= fun node =>
      treeInsert 2 tree0 node [98] [50]) = .error .fatal := by
  obtain ⟨b, hb, hd⟩ := buildNode_decodes (show BNODE_NODE < 65536 by decide)
    (show ValidEntries nodeOne by decide) (by decide) (by decide)
  rw [hb, ok_bind]
  exact treeInsert_fatal 1 tree0 b [98] [50] hd.1 (Or.inr hd.btype_eq)

/-- Claim C3: `treeInsert` is claimed to be copy-on-write, never writing into
the input node buffer. In the source the leaf-insert branch passes the input
node itself as the destination buffer (`leafInsert(node, node, …)`) and the
function would return the untouched fresh buffer; in execution every call
faults even earlier (the index is looked up in the zero buffer), so no insert
ever completes: inserting `"b"` into `["a" → "1", "c" → "3"]` is a fatal
error. -/
theorem claimC3_treeInsert_no_cow :
    (buildNode BNODE_LEAF leafTwo >>= fun node =>
      treeInsert 1 tree0 node [98] [50]) = .error .fatal := by
  obtain ⟨b, hb, hd⟩ := buildNode_decodes (show BNODE_LEAF < 65536 by decide)
    (show ValidEntries leafTwo by decide) (by decide) (by decide)
  rw [hb, ok_bind]
  exact treeInsert_fatal 0 tree0 b [98] [50] hd.1 (Or.inl hd.btype_eq)

/-- Claim C4: after each insert/update the tree's keys are claimed to remain
strictly ascending. No sequence of operations ever gets that far: already the
first insert into the empty leaf faults (the floor index is computed on the
zero buffer), so the code maintains no invariant at all. -/
theorem claimC4_first_insert_faults :
    treeInsert 1 tree0 (setHeader zeroBuf BNODE_LEAF 0) [97] [49] =
      .error .fatal := by
  have hbv : ByteVals (setHeader zeroBuf BNODE_LEAF 0) := by
    unfold setHeader
    exact byteVals_put16 (byteVals_put16 byteVals_zeroBuf _ _) _ _
  exact treeInsert_fatal 0 tree0 _ [97] [49] hbv (Or.inl rfl)

set_option maxRecDepth 10000

/-- Claim C5 counterexample: `splitCex` is built from bounded entries
(keys ≤ 1000 bytes, values ≤ 3000 bytes) with encoded size exactly
`2 * BTREE_PAGE_SIZE = 8192 > BTREE_PAGE_SIZE`, yet `nodeSplit3` on the node
built from it does not return 2 or 3 page-fitting nodes: it hits the source's
`log.Fatal` branch, because the left piece of the second split still exceeds
the page size (its encoded size is 4099). -/
theorem claimC5_counterexample :
    ValidEntries splitCex ∧ nbytesSpec splitCex = 8192 ∧
    (buildNode BNODE_LEAF splitCex >>= nodeSplit3) = .error .fatal := by
  have hv : ValidEntries splitCex := by
    simp [ValidEntries, ValidEntry, splitCex, List.mem_replicate,
      BTREE_MAX_KEY_SIZE, BTREE_MAX_VAL_SIZE, -List.reduceReplicate]
  have hnb : nbytesSpec splitCex = 8192 := by
    simp [nbytesSpec, offAt, splitCex, entrySize, -List.reduceReplicate]
  have hlen : splitCex.length = 4 := by
    simp [splitCex, -List.reduceReplicate]
  have hoff : offAt splitCex splitCex.length = 8148 := by
    simp [offAt, splitCex, entrySize, -List.reduceReplicate]
  have hsp : splitPoint splitCex = 3 := by
    simp [splitPoint, decN, incN, splitCex, offAt, entrySize, BTREE_PAGE_SIZE,
      -List.reduceReplicate]
  have hnb3 : nbytesSpec (splitCex.take 3) = 8113 := by
    simp [nbytesSpec, offAt, splitCex, entrySize, -List.reduceReplicate]
  have hsp3 : splitPoint (splitCex.take 3) = 2 := by
    simp [splitPoint, decN, incN, splitCex, offAt, entrySize, BTREE_PAGE_SIZE,
      -List.reduceReplicate]
  have hnb32 : nbytesSpec ((splitCex.take 3).take 2) = 4099 := by
    simp [nbytesSpec, offAt, splitCex, entrySize, -List.reduceReplicate]
  refine ⟨hv, hnb, ?_⟩
  obtain ⟨b, hb, hd⟩ := buildNode_decodes (show BNODE_LEAF < 65536 by decide)
    hv (by omega) (by omega)
  rw [hb, ok_bind]
  exact nodeSplit3_fatal hv (by rw [hnb]; decide) hd (by decide)
    (by rw [hnb]; decide) (by rw [hsp, hnb3]; decide)
    (by rw [hsp, hsp3, hnb32]; decide)

/-- Claim C5, amended: building a node from entries with key length ≤
`MAX_KEY_SIZE`, value length ≤ `MAX_VALUE_SIZE` and encoded size ≤
`2 * BTREE_PAGE_SIZE`: if the size is within one page, `nodeSplit3` returns
the single input node unchanged; if it is oversized, then whenever
`nodeSplit3` returns at all (it can instead fault, see the counterexample),
it returns 2 or 3 nodes, each with encoded size within one page, whose
concatenated key sequences equal the input's key sequence. -/
theorem claimC5_split3_amended (t : Nat) (es : List Entry) (ht : t < 65536)
    (hv : ValidEntries es) (hnb : nbytesSpec es ≤ 2 * BTREE_PAGE_SIZE) :
    ∃ b, buildNode t es = .ok b ∧
      (nbytesSpec es ≤ BTREE_PAGE_SIZE → nodeSplit3 b = .ok (1, [b])) ∧
      (∀ cnt ns, BTREE_PAGE_SIZE < nbytesSpec es →
        nodeSplit3 b = .ok (cnt, ns) →
        (cnt = 2 ∨ cnt = 3) ∧ ns.length = cnt ∧
        (∀ x ∈ ns, ∃ s, nbytes x = .ok s ∧ s ≤ BTREE_PAGE_SIZE) ∧
        ∃ kss : List (List (List Nat)),
          kss.length = cnt ∧
          (∀ i, i < cnt → nodeKeys (ns.getD i zeroBuf) = .ok (kss.getD i [])) ∧
          kss.join = es.map Entry.key) := by
  have hnb' : 4 + 10 * es.length + offAt es es.length ≤ 2 * BTREE_PAGE_SIZE := hnb
  have hpage : (2 : Nat) * BTREE_PAGE_SIZE = 8192 := rfl
  have hlen16 : es.length < 65536 := by omega
  have hoffb : offAt es es.length < 65536 := by omega
  obtain ⟨b, hb, hd⟩ := buildNode_decodes ht hv hlen16 hoffb
  refine ⟨b, hb, fun hfit => nodeSplit3_small hd hfit, ?_⟩
  intro cnt ns hbig heq
  by_cases hfit2 : nbytesSpec (es.take (splitPoint es)) ≤ BTREE_PAGE_SIZE
  · obtain ⟨l, r, heq2, hldec, hrdec, hrfits⟩ :=
      nodeSplit3_two hv hnb hd ht hbig hfit2
    rw [heq2] at heq
    obtain ⟨hcnt, hns⟩ := Prod.mk.injEq _ _ _ _ |>.mp (Except.ok.inj heq)
    subst hcnt
    subst hns
    have hksle : splitPoint es ≤ es.length := by
      rw [show splitPoint es =
        incN es es.length (es.length + 1) (decN es (es.length / 2)) from rfl]
      exact incN_le es es.length _ _
        (le_trans (decN_le es _) (by omega))
    have hL1len : (es.take (splitPoint es)).length = splitPoint es := by
      rw [List.length_take]
      omega
    have hrlen : (es.drop (splitPoint es)).length =
        es.length - splitPoint es := List.length_drop _ _
    refine ⟨Or.inl rfl, by simp, ?_, ?_⟩
    · intro x hx
      rcases List.mem_pair.mp hx with rfl | rfl
      · exact ⟨_, hldec.nbytes_eq hL1len, hfit2⟩
      · exact ⟨_, hrdec.nbytes_eq hrlen, hrfits⟩
    · refine ⟨[(es.take (splitPoint es)).map Entry.key,
        (es.drop (splitPoint es)).map Entry.key], by simp, ?_, ?_⟩
      · intro i hi
        interval_cases i
        · simpa using nodeKeys_ok hldec hL1len
        · simpa using nodeKeys_ok hrdec hrlen
      · show ((es.take (splitPoint es)).map Entry.key ++
          ((es.drop (splitPoint es)).map Entry.key ++ [])) = es.map Entry.key
        rw [List.append_nil, ← List.map_append, List.take_append_drop]
  · by_cases hfit3 : nbytesSpec ((es.take (splitPoint es)).take
        (splitPoint (es.take (splitPoint es)))) ≤ BTREE_PAGE_SIZE
    · obtain ⟨ll, mid, r, heq3, hlldec, hmiddec, hrdec, hmidfits, hrfits⟩ :=
        nodeSplit3_three hv hnb hd ht hbig (by omega) hfit3
      rw [heq3] at heq
      obtain ⟨hcnt, hns⟩ := Prod.mk.injEq _ _ _ _ |>.mp (Except.ok.inj heq)
      subst hcnt
      subst hns
      have hksle : splitPoint es ≤ es.length := by
        rw [show splitPoint es =
          incN es es.length (es.length + 1) (decN es (es.length / 2)) from rfl]
        exact incN_le es es.length _ _
          (le_trans (decN_le es _) (by omega))
      have hL1len : (es.take (splitPoint es)).length = splitPoint es := by
        rw [List.length_take]
        omega
      have hks2le : splitPoint (es.take (splitPoint es)) ≤
          (es.take (splitPoint es)).length := by
        rw [show splitPoint (es.take (splitPoint es)) =
          incN (es.take (splitPoint es)) (es.take (splitPoint es)).length
            ((es.take (splitPoint es)).length + 1)
            (decN (es.take (splitPoint es))
              ((es.take (splitPoint es)).length / 2)) from rfl]
        exact incN_le _ _ _ _ (le_trans (decN_le _ _) (by omega))
      have hLL1len : ((es.take (splitPoint es)).take
          (splitPoint (es.take (splitPoint es)))).length =
          splitPoint (es.take (splitPoint es)) := by
        rw [List.length_take]
        omega
      have hmidlen : ((es.take (splitPoint es)).drop
          (splitPoint (es.take (splitPoint es)))).length =
          (es.take (splitPoint es)).length -
            splitPoint (es.take (splitPoint es)) := List.length_drop _ _
      have hrlen : (es.drop (splitPoint es)).length =
          es.length - splitPoint es := List.length_drop _ _
      refine ⟨Or.inr rfl, by simp, ?_, ?_⟩
      · intro x hx
        simp only [List.mem_cons, List.not_mem_nil, or_false] at hx
        rcases hx with rfl | rfl | rfl
        · exact ⟨_, hlldec.nbytes_eq hLL1len, hfit3⟩
        · exact ⟨_, hmiddec.nbytes_eq hmidlen, hmidfits⟩
        · exact ⟨_, hrdec.nbytes_eq hrlen, hrfits⟩
      · refine ⟨[((es.take (splitPoint es)).take
            (splitPoint (es.take (splitPoint es)))).map Entry.key,
          ((es.take (splitPoint es)).drop
            (splitPoint (es.take (splitPoint es)))).map Entry.key,
          (es.drop (splitPoint es)).map Entry.key], by simp, ?_, ?_⟩
        · intro i hi
          interval_cases i
          · simpa using nodeKeys_ok hlldec hLL1len
          · simpa using nodeKeys_ok hmiddec hmidlen
          · simpa using nodeKeys_ok hrdec hrlen
        · show (((es.take (splitPoint es)).take
              (splitPoint (es.take (splitPoint es)))).map Entry.key ++
            (((es.take (splitPoint es)).drop
              (splitPoint (es.take (splitPoint es)))).map Entry.key ++
             ((es.drop (splitPoint es)).map Entry.key ++ []))) =
            es.map Entry.key
          rw [List.append_nil, ← List.append_assoc, ← List.map_append,
            List.take_append_drop, ← List.map_append, List.take_append_drop]
    · have hfatal := nodeSplit3_fatal hv hnb hd ht hbig (by omega) (by omega)
      rw [hfatal] at heq
      exact absurd heq (by simp)

/-- Witness for the amended claim C5 at a small concrete node. -/
theorem claimC5_witness :
    ∃ b, buildNode 2 exPair = .ok b ∧
      (nbytesSpec exPair ≤ BTREE_PAGE_SIZE → nodeSplit3 b = .ok (1, [b])) ∧
      (∀ cnt ns, BTREE_PAGE_SIZE < nbytesSpec exPair →
        nodeSplit3 b = .ok (cnt, ns) →
        (cnt = 2 ∨ cnt = 3) ∧ ns.length = cnt ∧
        (∀ x ∈ ns, ∃ s, nbytes x = .ok s ∧ s ≤ BTREE_PAGE_SIZE) ∧
        ∃ kss : List (List (List Nat)),
          kss.length = cnt ∧
          (∀ i, i < cnt → nodeKeys (ns.getD i zeroBuf) = .ok (kss.getD i [])) ∧
          kss.join = exPair.map Entry.key) :=
  claimC5_split3_amended 2 exPair (by decide) (by decide) (by decide)

/-- Claim C6: on any node built from at least 2 entries within the
`MAX_KEY_SIZE`/`MAX_VALUE_SIZE` bounds and encoded size at most
`2 * BTREE_PAGE_SIZE`, `nodeSplit2`'s two-phase adjustment terminates with a
split point `nleft` satisfying `1 ≤ nleft ≤ keyCount`, none of its fatal
branches fires (the call returns `.ok`), and the right output node's encoded
size is within one page. -/
theorem claimC6_split2_safe (t : Nat) (es : List Entry) (ht : t < 65536)
    (hv : ValidEntries es) (h2 : 2 ≤ es.length)
    (hnb : nbytesSpec es ≤ 2 * BTREE_PAGE_SIZE) :
    ∃ b l r, buildNode t es = .ok b ∧
      nodeSplit2 zeroBuf zeroBuf b = .ok (l, r) ∧
      1 ≤ splitPoint es ∧ splitPoint es ≤ es.length ∧
      ∃ rs, nbytes r = .ok rs ∧ rs ≤ BTREE_PAGE_SIZE := by
  have hnb' : 4 + 10 * es.length + offAt es es.length ≤ 2 * BTREE_PAGE_SIZE := hnb
  have hpage : (2 : Nat) * BTREE_PAGE_SIZE = 8192 := rfl
  have hlen16 : es.length < 65536 := by omega
  have hoffb : offAt es es.length < 65536 := by omega
  obtain ⟨b, hb, hd⟩ := buildNode_decodes ht hv hlen16 hoffb
  obtain ⟨l, r, heq2, hldec, hrdec, hksge, hksle, hrfits⟩ :=
    nodeSplit2_built hv h2 hnb hd ht
  exact ⟨b, l, r, hb, heq2, hksge, hksle, _,
    hrdec.nbytes_eq (List.length_drop _ _), hrfits⟩

/-- Witness for claim C6 at a small concrete node. -/
theorem claimC6_witness :
    ∃ b l r, buildNode 2 exPair = .ok b ∧
      nodeSplit2 zeroBuf zeroBuf b = .ok (l, r) ∧
      1 ≤ splitPoint exPair ∧ splitPoint exPair ≤ exPair.length ∧
      ∃ rs, nbytes r = .ok rs ∧ rs ≤ BTREE_PAGE_SIZE :=
  claimC6_split2_safe 2 exPair (by decide) (by decide) (by decide) (by decide)

/-- Claim C7 counterexample: on the one-entry leaf with key `"b"`, looking up
the key `"a"` (smaller than every key) returns 65535 — the uint16 wraparound
of `-1`, an out-of-range index — not the claimed saturated index 0. -/
theorem claimC7_counterexample :
    (buildNode BNODE_LEAF lookupCex >>= fun b =>
      nodeLookupLE b [97]) = .ok 65535 ∧ (65535 : Nat) ≠ 0 := by
  refine ⟨?_, by decide⟩
  obtain ⟨b, hb, hd⟩ := buildNode_decodes (show BNODE_LEAF < 65536 by decide)
    (show ValidEntries lookupCex by decide) (by decide) (by decide)
  rw [hb, ok_bind]
  exact nodeLookupLE_below hd (by decide) (by decide)

/-- Claim C7, amended: on a node with at least one entry and strictly
ascending keys, `nodeLookupLE` returns the greatest index whose key is at
most the lookup key whenever the first key is at most the lookup key; when
the lookup key is smaller than every key it returns 65535 (the uint16
wraparound of `-1`) rather than saturating to index 0. -/
theorem claimC7_lookup_amended (t : Nat) (es : List Entry) (key : List Nat)
    (ht : t < 65536) (hv : ValidEntries es) (h1 : 1 ≤ es.length)
    (hnb : nbytesSpec es ≤ 2 * BTREE_PAGE_SIZE) (hsort : SortedKeys es) :
    ∃ b, buildNode t es = .ok b ∧
      (compareBytes (entAt es 0).key key = .gt →
        nodeLookupLE b key = .ok 65535) ∧
      (compareBytes (entAt es 0).key key ≠ .gt →
        ∃ i, nodeLookupLE b key = .ok i ∧ i < es.length ∧
          compareBytes (entAt es i).key key ≠ .gt ∧
          ∀ j, j < es.length → compareBytes (entAt es j).key key ≠ .gt →
            j ≤ i) := by
  have hnb' : 4 + 10 * es.length + offAt es es.length ≤ 2 * BTREE_PAGE_SIZE := hnb
  have hpage : (2 : Nat) * BTREE_PAGE_SIZE = 8192 := rfl
  have hlen16 : es.length < 65536 := by omega
  have hoffb : offAt es es.length < 65536 := by omega
  obtain ⟨b, hb, hd⟩ := buildNode_decodes ht hv hlen16 hoffb
  refine ⟨b, hb, fun hgt => nodeLookupLE_below hd h1 hgt, fun hle0 => ?_⟩
  have hspec := lookupLoop_spec hd hsort hle0 h1 (es.length + 1) 0 (by omega)
    (by omega) (by omega)
  unfold nodeLookupLE
  rw [hd.nkeys_eq]
  exact hspec

/-- Witness for the amended claim C7 at a concrete sorted two-entry node. -/
theorem claimC7_witness :
    ∃ b, buildNode 2 exPair = .ok b ∧
      (compareBytes (entAt exPair 0).key [98] = .gt →
        nodeLookupLE b [98] = .ok 65535) ∧
      (compareBytes (entAt exPair 0).key [98] ≠ .gt →
        ∃ i, nodeLookupLE b [98] = .ok i ∧ i < exPair.length ∧
          compareBytes (entAt exPair i).key [98] ≠ .gt ∧
          ∀ j, j < exPair.length →
            compareBytes (entAt exPair j).key [98] ≠ .gt → j ≤ i) :=
  claimC7_lookup_amended 2 exPair [98] (by decide) (by decide) (by decide)
    (by decide)
    (by
      intro j1 j2 h12 h2l
      have h2l' : j2 < 2 := by simpa [exPair] using h2l
      interval_cases j2
      · omega
      · have h1' : j1 = 0 := by omega
        rw [h1']
        decide)

/-- Claim C9: building a node by `setHeader` followed by `nodeAppendKV` for
each entry in order (keys ≤ `MAX_KEY_SIZE`, values ≤ `MAX_VALUE_SIZE`, total
encoded size ≤ `2 * BTREE_PAGE_SIZE`), then decoding it, reproduces exactly
the entries used to build it. -/
theorem claimC9_roundtrip (t : Nat) (es : List Entry) (ht : t < 65536)
    (hv : ValidEntries es) (hnb : nbytesSpec es ≤ 2 * BTREE_PAGE_SIZE) :
    ∃ b, buildNode t es = .ok b ∧ nkeys b = es.length ∧ btype b = t ∧
      ∀ i, i < es.length →
        getPtr b i = .ok (entAt es i).ptr ∧
        getKey b i = .ok (entAt es i).key ∧
        getVal b i = .ok (entAt es i).val := by
  have hnb' : 4 + 10 * es.length + offAt es es.length ≤ 2 * BTREE_PAGE_SIZE := hnb
  have hpage : (2 : Nat) * BTREE_PAGE_SIZE = 8192 := rfl
  have hlen16 : es.length < 65536 := by omega
  have hoffb : offAt es es.length < 65536 := by omega
  obtain ⟨b, hb, hd⟩ := buildNode_decodes ht hv hlen16 hoffb
  exact ⟨b, hb, hd.nkeys_eq, hd.btype_eq, fun i hi =>
    ⟨hd.getPtr_eq hi, hd.getKey_eq hi, hd.getVal_eq hi⟩⟩

/-- Witness for claim C9 at a concrete two-entry node. -/
theorem claimC9_witness :
    ∃ b, buildNode 2 exPair = .ok b ∧ nkeys b = exPair.length ∧
      btype b = 2 ∧
      ∀ i, i < exPair.length →
        getPtr b i = .ok (entAt exPair i).ptr ∧
        getKey b i = .ok (entAt exPair i).key ∧
        getVal b i = .ok (entAt exPair i).val :=
  claimC9_roundtrip 2 exPair (by decide) (by decide) (by decide)

/-- Witness for claim C8: a sync failure on an empty filesystem reports an
error and leaves every path unchanged. -/
theorem claimC8_witness :
    (SaveData2 fs0 "f" [1] 0 ⟨true, true, false, true⟩).1 = .error () ∧
    ∀ q, (SaveData2 fs0 "f" [1] 0 ⟨true, true, false, true⟩).2 q = fs0 q :=
  (saveData2_spec fs0 "f" [1] 0 ⟨true, true, false, true⟩).2
    (Or.inr (Or.inr (Or.inr rfl)))

/-- Witness for claim C10: with open/write/sync succeeding and the rename
failing, the temp file remains on disk with the full data and the target is
untouched. -/
theorem claimC10_witness :
    (SaveData2 fs0 "f" [1] 0 ⟨true, true, true, false⟩).1 = .error () ∧
    (SaveData2 fs0 "f" [1] 0 ⟨true, true, true, false⟩).2
      ("f" ++ ".tmp." ++ toString 0) = some [1] ∧
    (SaveData2 fs0 "f" [1] 0 ⟨true, true, true, false⟩).2 "f" = fs0 "f" :=
  saveData2_renameFail fs0 "f" [1] 0 ⟨true, true, true, false⟩ rfl rfl rfl rfl
    rfl
